import Mathlib

/-!
A shallow embedding of the Sixpack expression compiler (rgb-xyz/Sixpack):
the semantic term graph (`Asg.h`/`Asg.cpp`), the rewrite pipeline
(`AsgTransforms.h`), the code generator (`Compiler.cpp`), the program and the
scalar interpreter (`Program.h`/`Program.cpp`).

Modelling conventions, stated once:
* `Real` (C++ `double`) is modelled as `ℚ`.  The concrete scenarios checked
  below use only small integer values, on which IEEE-754 double arithmetic is
  exact and agrees with `ℚ`.  Division is the total `ℚ` division (C++ would
  produce `inf`/`nan` for division by zero; no claim below exercises that
  path).  `std::format("\x7b\x7d", value)` on a double is modelled by an
  injective decimal/fraction rendering of `ℚ`.
* `RealFunction` (a host function pointer) is modelled by the identity type
  `FnId`; the pointers `&std::sin` / `&std::cos`, which the code generator
  compares against, are the distinguished identities `FnId.sin` / `FnId.cos`.
  The pointer value printed into a `UnaryFunction` key is modelled by an
  injective rendering of the identity.
* Shared pointers are modelled by values.  After the `Merge` layer two terms
  are pointer-identical exactly when they are structurally identical, so
  pointer identity of transformed terms is modelled by value equality
  (decided by `beqTerm`).  The `use_count` test in the sign-normalisation
  branch of `Reduced::transformImpl(Multiplication)` (unique ownership) is
  not observable on values and is modelled as always passing; no theorem
  below depends on that branch.
* The transform memoisation table (`Transform::mTransformedTerms`) and the
  `Merge` key cache are threaded explicitly through the pipeline as state;
  recursion is fuel-bounded (the C++ recursion terminates on every input, so
  a large enough fuel reproduces it exactly).
* Source back-references (`setSourceNode`) and the disassembly comments of
  the generated program are diagnostic only and are not modelled.
-/

set_option allowUnsafeReducibility true in
attribute [semireducible] Rat.add Rat.mul Rat.sub Rat.inv

namespace Sixpack

/-- C++ `sixpack::Real` (`double`), modelled as `ℚ`. -/
abbrev Real := ℚ

/-- The identity of a `RealFunction` (a `Real (*)(Real)` pointer in C++). -/
inductive FnId where
  | sin
  | cos
  | user (index : Nat)
deriving DecidableEq, Repr

/-- The ASG term (`asg::Term` and its subclasses in `Asg.h`).  A group
operation stores the value of its constant term (`mConstantTerm`, always an
`asg::Constant`); identity and null elements are fixed by the subclass
(`Addition`: identity 0, no null element; `Multiplication`: identity 1,
null element 0). -/
inductive Term where
  | constant (value : Real)
  | input (name : String)
  | output (name : String) (term : Term)
  | unaryFunction (function : FnId) (argument : Term)
  | addition (constantValue : Real) (positiveTerms negativeTerms : List Term)
  | multiplication (constantValue : Real) (positiveTerms negativeTerms : List Term)
  | exponentiation (base exponent : Term)
  | squaring (base : Term)
  | sequence (terms : List Term)

mutual

/-- Pointer identity of terms after `Merge`, modelled as structural equality
(see the header note). -/
def beqTerm : Term → Term → Bool
  | .constant v1, .constant v2 => v1 == v2
  | .input n1, .input n2 => n1 == n2
  | .output n1 t1, .output n2 t2 => n1 == n2 && beqTerm t1 t2
  | .unaryFunction f1 a1, .unaryFunction f2 a2 => f1 == f2 && beqTerm a1 a2
  | .addition c1 p1 n1, .addition c2 p2 n2 =>
      c1 == c2 && beqTermList p1 p2 && beqTermList n1 n2
  | .multiplication c1 p1 n1, .multiplication c2 p2 n2 =>
      c1 == c2 && beqTermList p1 p2 && beqTermList n1 n2
  | .exponentiation b1 e1, .exponentiation b2 e2 => beqTerm b1 b2 && beqTerm e1 e2
  | .squaring b1, .squaring b2 => beqTerm b1 b2
  | .sequence l1, .sequence l2 => beqTermList l1 l2
  | _, _ => false

def beqTermList : List Term → List Term → Bool
  | [], [] => true
  | t :: ts, u :: us => beqTerm t u && beqTermList ts us
  | _, _ => false

end

mutual

/-- `asg::Term::depth` (`getDepth` of each subclass).  `Sequence` starts its
maximum from −1, so the empty sequence has depth 0; a group operation
includes its constant term (an `asg::Constant`, depth 0) in the maximum. -/
def Term.depth : Term → Int
  | .constant _ => 0
  | .input _ => 0
  | .output _ t => 1 + t.depth
  | .unaryFunction _ a => 1 + a.depth
  | .addition _ pos neg => 1 + depthFold neg (depthFold pos 0)
  | .multiplication _ pos neg => 1 + depthFold neg (depthFold pos 0)
  | .exponentiation b e => 1 + max b.depth e.depth
  | .squaring b => 1 + b.depth
  | .sequence ts => 1 + depthFold ts (-1)

def depthFold : List Term → Int → Int
  | [], d => d
  | t :: ts, d => depthFold ts (max d t.depth)

end

/-- Decimal digits of a natural number, most significant first.  Stands in
for the decimal core of `std::format`; the first argument is a structural
recursion bound (`n` itself suffices, since the value at least halves per
step). -/
def natDecimalAux : Nat → Nat → List Char → List Char
  | 0, _, acc => acc
  | fuel + 1, n, acc =>
      if n = 0 then acc
      else natDecimalAux fuel (n / 10) (Char.ofNat (48 + n % 10) :: acc)

/-- Rendering of a natural number. -/
def natRepr (n : Nat) : String :=
  if n = 0 then "0" else ⟨natDecimalAux n n []⟩

/-- Rendering of an integer. -/
def intRepr (i : Int) : String :=
  if i < 0 then "-" ++ natRepr i.natAbs else natRepr i.natAbs

/-- `std::format("\x7b\x7d", value)` on a `double`, modelled on `ℚ`: an
integer renders as its decimal digits (as the shortest round-trip format of
an integral double does); a non-integral value renders as `num/den`. -/
def formatReal (q : Real) : String :=
  if q.den = 1 then intRepr q.num else intRepr q.num ++ "/" ++ natRepr q.den

/-- The serialised pointer `std::format("\x7b:#x\x7d", uintptr_t(function))`
in `UnaryFunction::getKey`, modelled injectively on `FnId`. -/
def fnKey : FnId → String
  | .sin => "0xsin"
  | .cos => "0xcos"
  | .user n => "0xu" ++ natRepr n

/-- Lexicographic comparison of character lists by code point.  Keys are
ASCII, so this agrees with the byte order of `std::string::operator<`. -/
def charListLt : List Char → List Char → Bool
  | _, [] => false
  | [], _ :: _ => true
  | c1 :: r1, c2 :: r2 =>
      if c1.toNat < c2.toNat then true
      else if c2.toNat < c1.toNat then false
      else charListLt r1 r2

/-- `std::string::operator<`. -/
def strLt (a b : String) : Bool := charListLt a.data b.data

/-- Insertion of one element into a sorted list under a boolean `le`. -/
def insertSorted {A : Type} (le : A → A → Bool) (a : A) : List A → List A
  | [] => [a]
  | b :: l => if le a b then a :: b :: l else b :: insertSorted le a l

/-- A stable insertion sort under a boolean `le`; on the distinct elements
sorted here it computes the same list as `std::sort` with the
corresponding strict order. -/
def sortByBool {A : Type} (le : A → A → Bool) : List A → List A
  | [] => []
  | a :: l => insertSorted le a (sortByBool le l)

/-- `std::sort(keys.begin(), keys.end())` with `operator<`. -/
def sortStrings (l : List String) : List String :=
  sortByBool (fun a b => !(strLt b a)) l

mutual

/-- `asg::Term::key` (`getKey` of each subclass): the canonical structural
fingerprint.  Group operations render their constant key, then the sorted
positive children keys each wrapped as `sign(key)` (`+`/`-` for `Addition`,
`*`/`/` for `Multiplication`).  `Sequence` joins its sorted children keys
with `|`. -/
def Term.key : Term → String
  | .constant v => formatReal v
  | .input n => n
  | .output n t => n ++ "[" ++ t.key ++ "]"
  | .unaryFunction f a => fnKey f ++ "(" ++ a.key ++ ")"
  | .addition c pos neg =>
      (sortStrings (keyList neg)).foldl (fun r k => r ++ "-(" ++ k ++ ")")
        ((sortStrings (keyList pos)).foldl (fun r k => r ++ "+(" ++ k ++ ")") (formatReal c))
  | .multiplication c pos neg =>
      (sortStrings (keyList neg)).foldl (fun r k => r ++ "/(" ++ k ++ ")")
        ((sortStrings (keyList pos)).foldl (fun r k => r ++ "*(" ++ k ++ ")") (formatReal c))
  | .exponentiation b e => "(" ++ b.key ++ ")^(" ++ e.key ++ ")"
  | .squaring b => "(" ++ b.key ++ ")^2"
  | .sequence ts =>
      match sortStrings (keyList ts) with
      | [] => ""
      | k :: ks => ks.foldl (fun r k2 => r ++ "|" ++ k2) k

def keyList : List Term → List String
  | [] => []
  | t :: ts => t.key :: keyList ts

end

/-- Sorting a child list by the keys of its elements, in the `std::string`
order the keys themselves are sorted with. -/
def sortByKeyLex (l : List Term) : List Term :=
  sortByBool (fun a b => !(strLt (Term.key b) (Term.key a))) l

mutual

/-- The commutativity canonicaliser used to state claim C6: the positive
and the negative child list of every `Addition`/`Multiplication` node are
sorted by key, recursively.  Two terms have equal canonical forms exactly
when they agree up to reordering those child lists. -/
def canonTerm : Term → Term
  | .constant v => .constant v
  | .input n => .input n
  | .output n t => .output n (canonTerm t)
  | .unaryFunction f a => .unaryFunction f (canonTerm a)
  | .addition c pos neg =>
      .addition c (sortByKeyLex (canonList pos)) (sortByKeyLex (canonList neg))
  | .multiplication c pos neg =>
      .multiplication c (sortByKeyLex (canonList pos)) (sortByKeyLex (canonList neg))
  | .exponentiation b e => .exponentiation (canonTerm b) (canonTerm e)
  | .squaring b => .squaring (canonTerm b)
  | .sequence ts => .sequence (canonList ts)

def canonList : List Term → List Term
  | [] => []
  | t :: ts => canonTerm t :: canonList ts

end

/-- `asg::Term::evaluateConstant`, parameterised by the meaning of host
functions (`fnE`) and of `std::pow` (`pw`).  A group operation with no
children evaluates to its constant; a `Multiplication` whose constant equals
the null element 0 evaluates to 0 (`Addition` has no null element, so its
null-element comparison is always false). -/
def Term.evaluateConstant (fnE : FnId → Real → Real) (pw : Real → Real → Real) :
    Term → Option Real
  | .constant v => some v
  | .input _ => none
  | .output _ _ => none
  | .sequence _ => none
  | .unaryFunction f a => (a.evaluateConstant fnE pw).map (fnE f)
  | .addition c pos neg => if pos.isEmpty && neg.isEmpty then some c else none
  | .multiplication c pos neg =>
      if pos.isEmpty && neg.isEmpty then some c
      else if c == 0 then some 0 else none
  | .exponentiation b e =>
      match b.evaluateConstant fnE pw with
      | some vb =>
          if vb == 0 then some 1
          else (e.evaluateConstant fnE pw).map (pw vb)
      | none => none
  | .squaring b => (b.evaluateConstant fnE pw).map (fun v => v * v)


/-! ## The rewrite pipeline

`Compiler::compile` instantiates
`asg::Reduced<asg::Grouped<asg::ConstEvaluated<asg::Merge>>>`.  Virtual
dispatch in `Transform::transform` selects the most derived override first,
so on each node the `Reduced` implementation runs first and hands its result
to `Grouped` via `transformNext`, which hands its result to the inherited
`Identity` rebuild; the returned term is then passed to `coalesceImpl`
(`ConstEvaluated`, then `Merge`).  Children are transformed through the whole
stack by `this->transform`. -/

/-- The two group-operation subclasses, with their metadata. -/
inductive GroupKind where
  | add
  | mul
deriving DecidableEq, Repr

def GroupKind.identityValue : GroupKind → Real
  | .add => 0
  | .mul => 1

def GroupKind.nullElement : GroupKind → Option Real
  | .add => none
  | .mul => some 0

def GroupKind.apply : GroupKind → Real → Real → Real
  | .add => (· + ·)
  | .mul => (· * ·)

def GroupKind.applyInverse : GroupKind → Real → Real → Real
  | .add => (· - ·)
  | .mul => (· / ·)

def GroupKind.mk : GroupKind → Real → List Term → List Term → Term
  | .add => .addition
  | .mul => .multiplication

/-- `dynamic_cast<const TOperation*>` on a term. -/
def GroupKind.asGroup : GroupKind → Term → Option (Real × List Term × List Term)
  | .add, .addition c p n => some (c, p, n)
  | .mul, .multiplication c p n => some (c, p, n)
  | _, _ => none

/-- The fuse callbacks passed to `reduceGroupTerms`: `Addition` fuses `n`
identical addends into `Multiplication(n) × child`; `Multiplication` fuses
`n` identical factors into `Exponentiation(child, n)`. -/
def GroupKind.fuse : GroupKind → Term → Nat → Term
  | .add, t, count => .multiplication (count : ℚ) [t] []
  | .mul, t, count => .exponentiation t (.constant (count : ℚ))

/-- The `GroupOperation` constructor takes a term for the constant slot; a
non-`Constant` falls back to the identity element
(`std::dynamic_pointer_cast` failing). -/
def constantOrIdentity (kind : GroupKind) : Term → Real
  | .constant v => v
  | _ => kind.identityValue

/-- State of one pipeline invocation: the transform memoisation table
(`Transform::mTransformedTerms`, keyed on input-term identity) and the
`Merge` key cache (`Merge::mTerms`). -/
structure TState where
  memo : List (Term × Term)
  cache : List (String × Term)

def memoFind (memo : List (Term × Term)) (t : Term) : Option Term :=
  (memo.find? (fun p => beqTerm p.1 t)).map (·.2)

def cacheFind (cache : List (String × Term)) (k : String) : Option Term :=
  (cache.find? (fun p => p.1 == k)).map (·.2)

/-- One multiset increment of `reduceGroupTerms` (`++terms[t]` / `--terms[t]`
on the identity-keyed `unordered_map`); first-occurrence insertion order
stands in for the unspecified map order, which the later key sort
canonicalises. -/
def bumpEntry (t : Term) (d : Int) : List (Term × Int) → List (Term × Int)
  | [] => [(t, d)]
  | (u, w) :: rest =>
      if beqTerm u t then (u, w + d) :: rest else (u, w) :: bumpEntry t d rest

/-- The multiset of `reduceGroupTerms`: positives count +1, negatives −1,
zero-weight entries erased. -/
def buildEntries (pos neg : List Term) : List (Term × Int) :=
  ((neg.foldl (fun es t => bumpEntry t (-1) es)
      (pos.foldl (fun es t => bumpEntry t 1 es) [])).filter (fun e => e.2 ≠ 0))

/-- The bucket comparator of `reduceGroupTerms`: shorter keys first, ties
lexicographic. -/
def keyLess (t1 t2 : Term) : Bool :=
  if t1.key.length = t2.key.length then strLt t1.key t2.key
  else decide (t1.key.length < t2.key.length)

/-- `std::sort` with `keyLess`; on the distinct keys produced after `Merge`
the strict order is total, so a stable insertion sort computes the same
list. -/
def sortTermsByKey (l : List Term) : List Term :=
  sortByBool (fun a b => !(keyLess b a)) l

/-- Membership modulo `beqTerm`, for the `unordered_set` duplicate filter of
`Reduced::transformImpl(Sequence)`. -/
def memberTerm (t : Term) : List Term → Bool
  | [] => false
  | u :: us => beqTerm u t || memberTerm t us

/-- Duplicate removal keeping first occurrences. -/
def dedupTerms (seen : List Term) : List Term → List Term
  | [] => []
  | t :: ts => if memberTerm t seen then dedupTerms seen ts else t :: dedupTerms (t :: seen) ts

/-- The factor list built by `squaredExponentiation` in
`Reduced::transformImpl(Exponentiation)`: binary decomposition of the
exponent magnitude, squaring the running term once per bit, least
significant bit first.  The first argument is a structural recursion bound
(the bit count itself suffices, since it at least halves per step). -/
def collectSquaringsAux : Nat → Term → Nat → List Term
  | 0, _, _ => []
  | fuel + 1, current, bits =>
      if bits = 0 then []
      else (if bits % 2 = 1 then [current] else []) ++
        collectSquaringsAux fuel (.squaring current) (bits / 2)

def collectSquarings (current : Term) (bits : Nat) : List Term :=
  collectSquaringsAux bits current bits

/-- The integral-exponent test `static_cast<double>(static_cast<int>(e)) == e`
(exact, no epsilon), on `ℚ`: the denominator is 1.  The `int` range is not
modelled. -/
def isIntegral (q : Real) : Bool := q.den = 1

/-- The candidate search of the sign-normalisation branch of
`Reduced::transformImpl(Multiplication)`: the first `Addition` child, split
out of its list (`use_count == 2` unique ownership is modelled as passing;
see the header note).  Returns the prefix, the addition's constant and
lists, and the suffix. -/
def splitAtAddition : List Term → Option (List Term × Real × List Term × List Term × List Term)
  | [] => none
  | .addition ac ap an :: rest => some ([], ac, ap, an, rest)
  | t :: rest =>
      (splitAtAddition rest).map (fun (pre, ac, ap, an, post) => (t :: pre, ac, ap, an, post))

/-- The per-child step of `Grouped::groupTerms` on an already-transformed
child: a `Constant` folds into the running constant via `apply`
(`applyInverse` on the negative side); a sibling operation of the same kind
is absorbed (its constant applied, its child lists spliced, signs swapped on
the negative side); anything else is appended with its own sign. -/
def groupAbsorb (kind : GroupKind) (inverse : Bool)
    (acc : Real × List Term × List Term) (r : Term) : Real × List Term × List Term :=
  let (cv, posAcc, negAcc) := acc
  let app := if inverse then kind.applyInverse else kind.apply
  match r with
  | .constant k => (app cv k, posAcc, negAcc)
  | r =>
      match kind.asGroup r with
      | some (c2, p2, n2) =>
          if inverse then (app cv c2, posAcc ++ n2, negAcc ++ p2)
          else (app cv c2, posAcc ++ p2, negAcc ++ n2)
      | none =>
          if inverse then (cv, posAcc, negAcc ++ [r])
          else (cv, posAcc ++ [r], negAcc)

section Pipeline

variable (fnE : FnId → Real → Real) (pw : Real → Real → Real)

/-- `coalesceImpl` of the pipeline: `ConstEvaluated` replaces a
constant-valued term by a fresh `Constant`, then `Merge` returns the cached
term with the same structural key, caching the term if absent. -/
def coalesceCE (st : TState) (t : Term) : Term × TState :=
  let t1 := match t.evaluateConstant fnE pw with
    | some v => Term.constant v
    | none => t
  match cacheFind st.cache t1.key with
  | some u => (u, st)
  | none => (t1, { st with cache := (t1.key, t1) :: st.cache })

/-! The layer implementations below are parameterised by
`tf : TState → Term → Option (Term × TState)`, the `this->transform` of the
enclosing pipeline at the remaining recursion budget; `transformT` ties the
knot by structural recursion on the fuel. -/

/-- `this->transform` mapped over a child list, threading the state. -/
def transformEach (tf : TState → Term → Option (Term × TState)) :
    TState → List Term → Option (List Term × TState)
  | st, [] => some ([], st)
  | st, t :: ts => do
      let (r, st1) ← tf st t
      let (rs, st2) ← transformEach tf st1 ts
      some (r :: rs, st2)

/-- The bucket-splitting loop of `Reduced::reduceGroupTerms`: positive
weight to the positive bucket, negative to the negative; a weight of
magnitude above one invokes the fuse callback and transforms its result
(the callbacks never return null), otherwise the term is emitted `count`
times. -/
def bucketize (tf : TState → Term → Option (Term × TState)) (kind : GroupKind) :
    TState → List (Term × Int) → List Term → List Term →
    Option (List Term × List Term × TState)
  | st, [], posAcc, negAcc => some (posAcc, negAcc, st)
  | st, (t, w) :: rest, posAcc, negAcc => do
      let count := w.natAbs
      if count > 1 then do
        let (f, st1) ← tf st (kind.fuse t count)
        if w > 0 then bucketize tf kind st1 rest (posAcc ++ [f]) negAcc
        else bucketize tf kind st1 rest posAcc (negAcc ++ [f])
      else
        if w > 0 then bucketize tf kind st rest (posAcc ++ List.replicate count t) negAcc
        else bucketize tf kind st rest posAcc (negAcc ++ List.replicate count t)

/-- `Identity::transformImpl` for a group operation: rebuild with the
transformed constant term and transformed children. -/
def identityGroup (tf : TState → Term → Option (Term × TState)) (st : TState)
    (kind : GroupKind) (c : Real) (pos neg : List Term) : Option (Term × TState) := do
  let (ct, st1) ← tf st (Term.constant c)
  let (posT, st2) ← transformEach tf st1 pos
  let (negT, st3) ← transformEach tf st2 neg
  some (kind.mk (constantOrIdentity kind ct) posT negT, st3)

/-- `Identity::transformImpl(Sequence)`: rebuild with transformed
children. -/
def identitySeq (tf : TState → Term → Option (Term × TState)) (st : TState)
    (ts : List Term) : Option (Term × TState) := do
  let (tsT, st1) ← transformEach tf st ts
  some ((Term.sequence tsT : Term), st1)

/-- `Grouped::groupTerms`: transform and absorb the positive children, then
the negative children, transform the accumulated constant, and hand the
rebuilt operation to the next layer (`Identity`). -/
def groupedGroup (tf : TState → Term → Option (Term × TState)) (st : TState)
    (kind : GroupKind) (c : Real) (pos neg : List Term) : Option (Term × TState) := do
  let (posT, st1) ← transformEach tf st pos
  let acc1 := posT.foldl (groupAbsorb kind false) (c, [], [])
  let (negT, st2) ← transformEach tf st1 neg
  let (cv, posAcc, negAcc) := negT.foldl (groupAbsorb kind true) acc1
  let (ct, st3) ← tf st2 (Term.constant cv)
  identityGroup tf st3 kind (constantOrIdentity kind ct) posAcc negAcc

/-- `Grouped::transformImpl(Sequence)`: transform each child; a child that
is itself a `Sequence` contributes its own (untransformed) subterms, any
other child contributes its transform; hand the flat sequence to the next
layer. -/
def groupedSeq (tf : TState → Term → Option (Term × TState)) (st : TState)
    (us : List Term) : Option (Term × TState) := do
  let (rs, st1) ← transformEach tf st us
  let flat := (us.zip rs).foldl (fun acc p =>
    match p.1 with
    | .sequence sub => acc ++ sub
    | _ => acc ++ [p.2]) []
  identitySeq tf st1 flat

/-- `Reduced::reduceGroupTerms`: a constant equal to the null element
collapses the operation to that constant; otherwise build the signed
multiset of transformed children, drop cancelled entries, collapse to a
sole surviving `+1` child when the constant is the identity, otherwise
bucket (fusing repeats), sort each bucket by key (shorter first, then
lexicographic), transform the constant term and hand the rebuilt operation
to the next layer (`Grouped`). -/
def reducedGroup (tf : TState → Term → Option (Term × TState)) (st : TState)
    (kind : GroupKind) (c : Real) (pos neg : List Term) : Option (Term × TState) :=
  if kind.nullElement = some c then
    tf st (Term.constant c)
  else do
    let (posT, st1) ← transformEach tf st pos
    let (negT, st2) ← transformEach tf st1 neg
    let entries := buildEntries posT negT
    match entries, decide (c = kind.identityValue) with
    | [(t0, 1)], true => some (t0, st2)
    | es, _ => do
        let (posB, negB, st3) ← bucketize tf kind st2 es [] []
        let (ct, st4) ← tf st3 (Term.constant c)
        groupedGroup tf st4 kind (constantOrIdentity kind ct)
          (sortTermsByKey posB) (sortTermsByKey negB)

/-- `Reduced::transformImpl(Sequence)`: transform the children, drop
duplicates (by post-`Merge` identity), hand the sequence to the next layer
(`Grouped`). -/
def reducedSeq (tf : TState → Term → Option (Term × TState)) (st : TState)
    (ts : List Term) : Option (Term × TState) := do
  let (tsT, st1) ← transformEach tf st ts
  groupedSeq tf st1 (dedupTerms [] tsT)

/-- `Reduced::transformImpl(Exponentiation)`: when the (untransformed)
exponent evaluates to an integral constant `n`, expand to the
repeated-squaring `Multiplication` over the untransformed base and hand it
to the next layer (`Grouped`), positives for `n > 0`, negatives for
`n < 0`; otherwise the inherited `Identity` rebuild. -/
def reducedExpo (tf : TState → Term → Option (Term × TState)) (st : TState)
    (b e : Term) : Option (Term × TState) :=
  match e.evaluateConstant fnE pw with
  | some ce =>
      if isIntegral ce then
        let factors := collectSquarings b ce.num.natAbs
        if ce.num > 0 then groupedGroup tf st .mul 1 factors []
        else if ce.num < 0 then groupedGroup tf st .mul 1 [] factors
        else groupedGroup tf st .mul 1 [] []
      else do
        let (b2, st1) ← tf st b
        let (e2, st2) ← tf st1 e
        some ((Term.exponentiation b2 e2 : Term), st2)
  | none => do
      let (b2, st1) ← tf st b
      let (e2, st2) ← tf st1 e
      some ((Term.exponentiation b2 e2 : Term), st2)

/-- `Reduced::transformImpl(Multiplication)`: with a negative constant and
an `Addition` child available, invert that child (swap its lists, negate
its constant), negate the own constant and re-enter (the re-entry has a
positive constant, so it proceeds to `reduceGroupTerms`); otherwise
`reduceGroupTerms` directly. -/
def reducedMul (tf : TState → Term → Option (Term × TState)) (st : TState)
    (c : Real) (pos neg : List Term) : Option (Term × TState) :=
  if c < 0 then
    match splitAtAddition pos with
    | some (pre, ac, ap, an, post) => do
        let (ict, st1) ← tf st (Term.constant (-ac))
        let (inv2, st2) ← tf st1 (Term.addition (constantOrIdentity .add ict) an ap)
        let (mct, st3) ← tf st2 (Term.constant (-c))
        reducedGroup tf st3 .mul (constantOrIdentity .mul mct) (pre ++ inv2 :: post) neg
    | none =>
        match splitAtAddition neg with
        | some (pre, ac, ap, an, post) => do
            let (ict, st1) ← tf st (Term.constant (-ac))
            let (inv2, st2) ← tf st1 (Term.addition (constantOrIdentity .add ict) an ap)
            let (mct, st3) ← tf st2 (Term.constant (-c))
            reducedGroup tf st3 .mul (constantOrIdentity .mul mct) pos (pre ++ inv2 :: post)
        | none => reducedGroup tf st .mul c pos neg
  else reducedGroup tf st .mul c pos neg

/-- One `Transform::transform` call given `this->transform` for the
recursive calls: memo lookup, virtual dispatch to the most derived
`transformImpl` (`Reduced` for `Sequence` / `Addition` / `Multiplication` /
`Exponentiation`, the inherited `Identity` rebuild for the other kinds),
`coalesceImpl`, memo insertion. -/
def transformStep (tf : TState → Term → Option (Term × TState)) (st : TState)
    (t : Term) : Option (Term × TState) :=
  match memoFind st.memo t with
  | some r => some (r, st)
  | none => do
      let (r, st1) ←
        match t with
        | .constant v => some ((Term.constant v : Term), st)
        | .input n => some ((Term.input n : Term), st)
        | .output n ch => do
            let (ch2, st2) ← tf st ch
            some ((Term.output n ch2 : Term), st2)
        | .unaryFunction f a => do
            let (a2, st2) ← tf st a
            some ((Term.unaryFunction f a2 : Term), st2)
        | .squaring b => do
            let (b2, st2) ← tf st b
            some ((Term.squaring b2 : Term), st2)
        | .exponentiation b e => reducedExpo fnE pw tf st b e
        | .addition c pos neg => reducedGroup tf st .add c pos neg
        | .multiplication c pos neg => reducedMul tf st c pos neg
        | .sequence ts => reducedSeq tf st ts
      let (r2, st2) := coalesceCE fnE pw st1 r
      some (r2, { st2 with memo := (t, r2) :: st2.memo })

/-- `Transform::transform`, fuel-bounded: `none` means out of fuel; the C++
recursion terminates on every input, so a large enough fuel reproduces it
exactly. -/
def transformT : Nat → TState → Term → Option (Term × TState)
  | 0, _, _ => none
  | fuel + 1, st, t => transformStep fnE pw (transformT fuel) st t

end Pipeline

/-- One full pipeline invocation: `Transform` value-initialised (fresh memo
and cache), applied to the graph root. -/
def pipelineRun (fnE : FnId → Real → Real) (pw : Real → Real → Real)
    (fuel : Nat) (g : Term) : Option Term :=
  (transformT fnE pw fuel { memo := [], cache := [] } g).map (·.1)

/-! ## Program representation (`Program.h`) -/

/-- `Program::Opcode`. -/
inductive Opcode where
  | nop
  | add
  | addImm
  | subtract
  | subtractImm
  | multiply
  | multiplyImm
  | divide
  | divideImm
  | power
  | call
  | sin
  | cos
  | sincos
deriving DecidableEq, Repr

/-- The union payload of `Program::Instruction` (one slot, discriminated by
the opcode): `operand1`/`source` for the binary operations, `immediate` for
the `_IMM` forms, `function` for `CALL`, `displacement`/`target` for
`SINCOS`. -/
inductive Extra where
  | src (address : Nat)
  | imm (value : Real)
  | fn (function : FnId)
  | disp (target : Int)
  | unset
deriving DecidableEq, Repr

/-- `Program::Instruction`: opcode, the always-valid operand address
(`operand2`), and the union slot. -/
structure Instr where
  opcode : Opcode
  operand : Nat
  extra : Extra
deriving DecidableEq, Repr

/-- Union readers; a mismatched tag is unspecified in C++ (never exercised
by generated code) and modelled by a fixed junk value. -/
def Extra.getSrc : Extra → Nat
  | .src a => a
  | _ => 0

def Extra.getImm : Extra → Real
  | .imm v => v
  | _ => 0

def Extra.getFn : Extra → FnId
  | .fn f => f
  | _ => .user 0

def Extra.getDisp : Extra → Int
  | .disp d => d
  | _ => 0

/-- `Program::Instruction::operator==`: opcodes must agree and the
opcode-dependent operand fields must agree; `NOP`s never compare equal. -/
def instrEq (a b : Instr) : Bool :=
  if a.opcode = b.opcode then
    match a.opcode with
    | .nop => false
    | .add | .subtract | .multiply | .divide | .power =>
        a.operand == b.operand && a.extra.getSrc == b.extra.getSrc
    | .addImm | .subtractImm | .multiplyImm | .divideImm =>
        a.operand == b.operand && a.extra.getImm == b.extra.getImm
    | .call => a.operand == b.operand && a.extra.getFn == b.extra.getFn
    | .sin | .cos => a.operand == b.operand
    | .sincos => a.operand == b.operand && a.extra.getDisp == b.extra.getDisp
  else false

/-- `Program::SCRATCHPAD_ADDRESS`. -/
def SCRATCHPAD_ADDRESS : Nat := 0

/-- `Program` (addresses as `Nat`; the disassembly comments are not
modelled). -/
structure Program where
  inputs : List (String × Nat)
  outputs : List (String × Nat)
  constantsOffset : Nat
  constantsValues : List Real
  instructionsOffset : Nat
  instructions : List Instr
deriving Repr

/-! ## The code generator (`Compiler.cpp`, anonymous-namespace
`CodeGenerator`) -/

mutual

/-- The `gather` traversal of the `CodeGenerator` visitor, in visit order,
possibly with repeats (the `mUniqueTerms` insertion filter is applied by a
dedup afterwards, keeping first occurrences — by pointer identity in C++,
by value here).  `Sequence` gathers only its children; a group operation
excludes its constant term on purpose. -/
def gatherVisit : Term → List Term
  | .sequence ts => gatherVisitList ts
  | .constant v => [.constant v]
  | .input n => [.input n]
  | .output n t => .output n t :: gatherVisit t
  | .unaryFunction f a => .unaryFunction f a :: gatherVisit a
  | .addition c pos neg =>
      .addition c pos neg :: (gatherVisitList pos ++ gatherVisitList neg)
  | .multiplication c pos neg =>
      .multiplication c pos neg :: (gatherVisitList pos ++ gatherVisitList neg)
  | .exponentiation b e => .exponentiation b e :: (gatherVisit b ++ gatherVisit e)
  | .squaring b => .squaring b :: gatherVisit b

def gatherVisitList : List Term → List Term
  | [] => []
  | t :: ts => gatherVisit t ++ gatherVisitList ts

end

/-- The kind order used to stable-sort each depth level
(`typeid(*t1).before(typeid(*t2))`).  The C++ order is
implementation-defined; the fixed ranking below stands in for it.  The
programs examined by the theorems have at most one term per level, so no
conclusion depends on this choice. -/
def kindRank : Term → Nat
  | .constant _ => 0
  | .input _ => 1
  | .output _ _ => 2
  | .unaryFunction _ _ => 3
  | .addition _ _ _ => 4
  | .multiplication _ _ _ => 5
  | .exponentiation _ _ => 6
  | .squaring _ => 7
  | .sequence _ => 8

/-- Depth levels: unique gathered terms bucketed by `depth`, each level
stable-sorted by kind.  With no gathered terms at all, `mTermLevels` is
never resized, so there are no levels (in particular no data section). -/
def termLevels (root : Term) : List (List Term) :=
  let unique := dedupTerms [] (gatherVisit root)
  if unique.isEmpty then []
  else
    let maxDepth := unique.foldl (fun d t => max d t.depth.toNat) 0
    (List.range (maxDepth + 1)).map (fun level =>
      sortByBool (fun t1 t2 => !(decide (kindRank t2 < kindRank t1)))
        (unique.filter (fun t => t.depth.toNat = level)))

/-- The mutable state of `CodeGenerator::generate`. -/
structure CGState where
  inputs : List (String × Nat)
  outputs : List (String × Nat)
  constantsValues : List Real
  constantsOffset : Nat
  instructionsOffset : Nat
  instructions : List Instr
  mapping : List (Term × Nat)

/-- Association lookup keyed on term identity (modelled as `beqTerm`). -/
def assocTerm {A : Type} (l : List (Term × A)) (t : Term) : Option A :=
  (l.find? (fun p => beqTerm p.1 t)).map (·.2)

/-- `CodeGenerator::mapToMemory` (without the comment bookkeeping):
ambiguous re-mapping throws. -/
def mapToMemory (st : CGState) (t : Term) (address : Nat) : Except String CGState :=
  match assocTerm st.mapping t with
  | some _ => .error "Code generation failed -- ambiguous memory mapping"
  | none => .ok { st with mapping := (t, address) :: st.mapping }

/-- `CodeGenerator::getAddress`. -/
def getAddress (st : CGState) (t : Term) : Except String Nat :=
  match assocTerm st.mapping t with
  | some a => .ok a
  | none => .error "Code generation failed -- missing memory mapping"

/-- `CodeGenerator::emitInstruction`: search the emitted list for an
`operator==`-equal instruction (instruction-level CSE); on a miss append.
The returned address is the memory offset plus the instruction's index. -/
def emitInstruction (st : CGState) (opcode : Opcode) (operand : Nat) (extra : Extra) :
    Nat × CGState :=
  let ins : Instr := { opcode := opcode, operand := operand, extra := extra }
  match (st.instructions.findIdx? (fun i => instrEq i ins)) with
  | some idx => (st.instructionsOffset + idx, st)
  | none =>
      (st.instructionsOffset + st.instructions.length,
       { st with instructions := st.instructions ++ [ins] })

/-- One pass of `CodeGenerator::emitGroupOperationSequence` over a child
list (positives with the positive opcodes, then reinvoked for negatives
with the negative ones), carrying the accumulator address and the pending
initial operation. -/
def emitGroupChildren (initialOp sequentialOp : Opcode) (needsConstant : Bool)
    (constant : Real) :
    CGState → Option Nat → Option Opcode → List Term →
    Except String (CGState × Option Nat × Option Opcode)
  | st, lastAddress, pendingOperation, [] => .ok (st, lastAddress, pendingOperation)
  | st, lastAddress, pendingOperation, t :: ts => do
      let address ← getAddress st t
      match lastAddress with
      | some la =>
          let (a2, st2) := emitInstruction st sequentialOp address (.src la)
          emitGroupChildren initialOp sequentialOp needsConstant constant st2
            (some a2) none ts
      | none =>
          if needsConstant then
            let (a2, st2) := emitInstruction st initialOp address (.imm constant)
            emitGroupChildren initialOp sequentialOp needsConstant constant st2
              (some a2) pendingOperation ts
          else
            emitGroupChildren initialOp sequentialOp needsConstant constant st
              (some address) (some initialOp) ts

/-- `CodeGenerator::emitGroupOperationSequence`.  The trailing `assert` on
an engaged accumulator is modelled as an error (a group operation with no
children never reaches the generator from the pipeline). -/
def emitGroupOperationSequence (st : CGState) (operation : Term)
    (c : Real) (identity : Real) (pos neg : List Term)
    (initialPositiveOp sequentialPositiveOp initialNegativeOp sequentialNegativeOp : Opcode) :
    Except String CGState := do
  let needsConstant := c ≠ identity
  let (st1, lastAddress, pendingOperation) ←
    emitGroupChildren initialPositiveOp sequentialPositiveOp needsConstant c
      st none none pos
  let (st2, lastAddress2, pendingOperation2) ←
    emitGroupChildren initialNegativeOp sequentialNegativeOp needsConstant c
      st1 lastAddress pendingOperation neg
  match lastAddress2 with
  | none => .error "Code generation failed -- empty group operation"
  | some la =>
      match pendingOperation2 with
      | some op =>
          let (a3, st3) := emitInstruction st2 op la (.imm c)
          mapToMemory st3 operation a3
      | none => mapToMemory st2 operation la

/-- `CodeGenerator::generateDataSection`: count the level-0 constants and
inputs, reject anything else, then assign input addresses from 1 upward (an
already-present name keeps its address) and constant addresses after the
inputs, recording constant values at matching positions; finally set the
constants and instructions memory offsets. -/
def generateDataSection (st : CGState) (terms : List Term) : Except String CGState := do
  if terms.any (fun t => match t with | .constant _ | .input _ => false | _ => true) then
    .error "Code generation failed -- code present in the data section"
  else
    let constantCount := (terms.filter (fun t => match t with | .constant _ => true | _ => false)).length
    let variableCount := (terms.filter (fun t => match t with | .input _ => true | _ => false)).length
    let variableSection := 1
    let constantSection := variableSection + variableCount
    let codeSection := constantSection + constantCount
    let st2 ← terms.foldlM (fun (st : CGState) t =>
      match t with
      | .constant v => do
          let address := constantSection + st.constantsValues.length
          mapToMemory { st with constantsValues := st.constantsValues ++ [v] } t address
      | .input n =>
          (match st.inputs.lookup n with
           | some a => mapToMemory st t a
           | none => do
               let address := variableSection + st.inputs.length
               mapToMemory { st with inputs := st.inputs ++ [(n, address)] } t address)
      | _ => .ok st) st
    .ok { st2 with constantsOffset := constantSection, instructionsOffset := codeSection }

/-- One term of `CodeGenerator::generateCodeSection`: an `Output` binds its
name to its child's address (first insertion wins) and maps itself there; a
`UnaryFunction` emits `CALL`; group operations emit their operation
sequences; `Exponentiation` emits `POWER base, exponent`; `Squaring` emits
`MULTIPLY base, base`; anything else (data) throws. -/
def generateCodeTerm (st : CGState) (t : Term) : Except String CGState :=
  match t with
  | .output n ch => do
      let address ← getAddress st ch
      let st2 := if (st.outputs.lookup n).isSome then st
                 else { st with outputs := st.outputs ++ [(n, address)] }
      mapToMemory st2 t address
  | .unaryFunction f a => do
      let address ← getAddress st a
      let (adr, st2) := emitInstruction st .call address (.fn f)
      mapToMemory st2 t adr
  | .addition c pos neg =>
      emitGroupOperationSequence st t c 0 pos neg .addImm .add .subtractImm .subtract
  | .multiplication c pos neg =>
      emitGroupOperationSequence st t c 1 pos neg .multiplyImm .multiply .divideImm .divide
  | .exponentiation b e => do
      let ab ← getAddress st b
      let ae ← getAddress st e
      let (adr, st2) := emitInstruction st .power ae (.src ab)
      mapToMemory st2 t adr
  | .squaring b => do
      let ab ← getAddress st b
      let (adr, st2) := emitInstruction st .multiply ab (.src ab)
      mapToMemory st2 t adr
  | _ => .error "Code generation failed -- data present in the code section"

/-- The last index holding `CALL function, operand` — the surviving entry of
the overwriting `candidates[operand]` assignments in
`CodeGenerator::generateIntrinsics`. -/
def lastCallIdx (f : FnId) (a : Nat) : List Instr → Option Nat
  | [] => none
  | i :: rest =>
      match lastCallIdx f a rest with
      | some k => some (k + 1)
      | none =>
          if i.opcode = .call ∧ i.extra.getFn = f ∧ i.operand = a then some 0 else none

/-- The rewrite `CodeGenerator::generateIntrinsics` applies to the
instruction at index `i`: the (last) sin call of an operand that also has a
cos call becomes `SINCOS` with the signed displacement to the (last) cos
call, and that cos call becomes `NOP` (its union slot keeps its old
bytes). -/
def fuseAt (instrs : List Instr) (i : Nat) (ins : Instr) : Instr :=
  if ins.opcode = .call ∧ ins.extra.getFn = .sin ∧
      lastCallIdx .sin ins.operand instrs = some i then
    match lastCallIdx .cos ins.operand instrs with
    | some j => { ins with opcode := .sincos, extra := .disp ((j : Int) - (i : Int)) }
    | none => ins
  else if ins.opcode = .call ∧ ins.extra.getFn = .cos ∧
      lastCallIdx .cos ins.operand instrs = some i then
    match lastCallIdx .sin ins.operand instrs with
    | some _ => { ins with opcode := .nop }
    | none => ins
  else ins

/-- `CodeGenerator::generateIntrinsics`: the per-index rewrite applied to
every instruction. -/
def generateIntrinsics (instrs : List Instr) : List Instr :=
  (List.range instrs.length).map (fun i =>
    match instrs[i]? with
    | none => { opcode := .nop, operand := 0, extra := .unset }
    | some ins => fuseAt instrs i ins)

/-- The indices `j` holding the `CALL`-cos of a fused pair, with the index
of the partner `CALL`-sin and the shared operand. -/
def fusedCos (instrs : List Instr) (j : Nat) : Option (Nat × Nat) :=
  match instrs[j]? with
  | some ins =>
      if ins.opcode = .call ∧ ins.extra.getFn = .cos ∧
          lastCallIdx .cos ins.operand instrs = some j then
        match lastCallIdx .sin ins.operand instrs with
        | some i => some (i, ins.operand)
        | none => none
      else none
  | none => none

/-- The memory addresses an instruction reads. -/
def instrReads (ins : Instr) : List Nat :=
  match ins.opcode with
  | .nop => []
  | .add | .subtract | .multiply | .divide | .power =>
      [ins.operand, ins.extra.getSrc]
  | .addImm | .subtractImm | .multiplyImm | .divideImm => [ins.operand]
  | .call | .sin | .cos | .sincos => [ins.operand]

/-- An opcode the code generator emits before intrinsic rewriting:
everything except `NOP` and the intrinsic forms. -/
def plainOp (o : Opcode) : Bool :=
  match o with
  | .nop | .sin | .cos | .sincos => false
  | _ => true

/-- The value an instruction computes for its own output slot, as a
function of the memory it reads (for `SINCOS`, the sine). -/
def instrValue (fnE : FnId → Real → Real) (pw : Real → Real → Real)
    (ins : Instr) (m : Nat → Real) : Real :=
  match ins.opcode with
  | .nop => 0
  | .add => m ins.extra.getSrc + m ins.operand
  | .addImm => ins.extra.getImm + m ins.operand
  | .subtract => m ins.extra.getSrc - m ins.operand
  | .subtractImm => ins.extra.getImm - m ins.operand
  | .multiply => m ins.extra.getSrc * m ins.operand
  | .multiplyImm => ins.extra.getImm * m ins.operand
  | .divide => m ins.extra.getSrc / m ins.operand
  | .divideImm => ins.extra.getImm / m ins.operand
  | .power => pw (m ins.extra.getSrc) (m ins.operand)
  | .call => fnE ins.extra.getFn (m ins.operand)
  | .sin => fnE .sin (m ins.operand)
  | .cos => fnE .cos (m ins.operand)
  | .sincos => fnE .sin (m ins.operand)

/-- The value that ends up in code slot `s` under the read discipline of
generated straight-line code (slot `s` is computed by instruction `s` from
data words and earlier code slots only).  Fuel-bounded; under that
discipline every fuel above `s` computes the same value. -/
def slotVal (fnE : FnId → Real → Real) (pw : Real → Real → Real)
    (instrs : List Instr) (off : Nat) (m0 : Nat → Real) : Nat → Nat → Real
  | 0, _ => 0
  | fuel + 1, s =>
      match instrs[s]? with
      | none => 0
      | some ins => instrValue fnE pw ins
          (fun r => if r < off then m0 r
            else slotVal fnE pw instrs off m0 fuel (r - off))

/-- Whether, after the first `k` post-fusion instructions have run, code
slot `s` already holds its final value: a fused cos slot is written by its
partner `SINCOS`, every other slot by its own instruction. -/
def writtenBy (instrs : List Instr) (k s : Nat) : Bool :=
  match fusedCos instrs s with
  | some (i, _) => decide (i < k)
  | none => decide (s < k)

/-- The memory invariant of the post-fusion run after its first `k`
instructions: every already-written code slot holds its `slotVal`, every
other address its initial value. -/
def postInv (fnE : FnId → Real → Real) (pw : Real → Real → Real)
    (instrs : List Instr) (off : Nat) (m0 : Nat → Real) (k : Nat)
    (Q : Nat → Real) : Prop :=
  ∀ addr, Q addr =
    if off ≤ addr ∧ addr < off + instrs.length ∧ writtenBy instrs k (addr - off)
    then slotVal fnE pw instrs off m0 (addr - off + 1) (addr - off)
    else m0 addr

/-- A compiler symbol (`Symbols.h`).  `ExpressionSymbol` (named
subexpressions, macro-expanded during graph build) is not needed by any
claim below and is omitted. -/
inductive Symbol where
  | constantSymbol (name : String) (value : Real)
  | parameterSymbol (name : String) (value : Real)
  | variableSymbol (name : String)
  | functionSymbol (name : String) (function : FnId)
deriving DecidableEq, Repr

/-- `CodeGenerator::generate`: process the depth levels (level 0 is the
data section, the rest the code section in ascending order), rewrite
intrinsics, then map every public variable that received no address to the
scratchpad.  With no terms at all the loop body never runs and both memory
offsets keep their value-initialised 0. -/
def generate (root : Term) (publicSymbols : List Symbol) : Except String Program := do
  let st0 : CGState :=
    { inputs := [], outputs := [], constantsValues := [], constantsOffset := 0,
      instructionsOffset := 0, instructions := [], mapping := [] }
  let st ←
    match termLevels root with
    | [] => .ok st0
    | level0 :: restLevels => do
        let st1 ← generateDataSection st0 level0
        restLevels.foldlM (fun st lvl => lvl.foldlM generateCodeTerm st) st1
  let inputs2 := publicSymbols.foldl (fun (ins : List (String × Nat)) s =>
    match s with
    | .variableSymbol n =>
        if (ins.lookup n).isSome then ins else ins ++ [(n, SCRATCHPAD_ADDRESS)]
    | _ => ins) st.inputs
  .ok { inputs := inputs2, outputs := st.outputs, constantsOffset := st.constantsOffset,
        constantsValues := st.constantsValues, instructionsOffset := st.instructionsOffset,
        instructions := generateIntrinsics st.instructions }

/-- The invariants asserted by the `Program` constructor, stated over
unbounded addresses: a non-empty constants segment avoids the scratchpad
(`SCRATCHPAD_ADDRESS - offset >= size` on `uint32` rejects exactly
`offset = 0` for realistic sizes) and ends at or before the code segment;
no input is mapped at or above the code segment or inside the constants
segment; no output is mapped to the scratchpad. -/
def Program.layoutInvariant (p : Program) : Prop :=
  (p.constantsValues = [] ∨
    (p.constantsOffset ≠ SCRATCHPAD_ADDRESS ∧
     p.constantsOffset + p.constantsValues.length ≤ p.instructionsOffset)) ∧
  (∀ pr ∈ p.inputs, pr.2 < p.instructionsOffset ∧
      ¬ (p.constantsOffset ≤ pr.2 ∧ pr.2 < p.constantsOffset + p.constantsValues.length)) ∧
  (∀ pr ∈ p.outputs, pr.2 ≠ SCRATCHPAD_ADDRESS)

/-! ## Graph build (`Compiler.cpp`, anonymous-namespace `GraphBuilder`) and
the compile pipeline -/

/-- The syntax tree (`Ast.h`), with `Value` nodes carrying their resolved
symbol. -/
inductive Ast where
  | literal (value : Real)
  | value (symbol : Symbol)
  | unaryFunctionNode (function : FnId) (argument : Ast)
  | unaryPlus (operand : Ast)
  | unaryMinus (operand : Ast)
  | binaryPlus (left right : Ast)
  | binaryMinus (left right : Ast)
  | binaryAsterisk (left right : Ast)
  | binarySlash (left right : Ast)
  | binaryCaret (left right : Ast)
deriving DecidableEq, Repr

/-- The `GraphBuilder` visitor: literals and constant/parameter symbols
become `Constant` terms (parameters frozen at compile time), variables
become `Input` terms, unary minus becomes multiplication by −1, the binary
operators become two-child group operations or `Exponentiation`.  A
function symbol in value position is the "Unhandled value symbol type"
error. -/
def buildTerm : Ast → Except String Term
  | .literal v => .ok (.constant v)
  | .value s =>
      match s with
      | .constantSymbol _ v => .ok (.constant v)
      | .parameterSymbol _ v => .ok (.constant v)
      | .variableSymbol n => .ok (.input n)
      | .functionSymbol _ _ => .error "Unhandled value symbol type."
  | .unaryFunctionNode f a => (buildTerm a).map (fun t => .unaryFunction f t)
  | .unaryPlus x => buildTerm x
  | .unaryMinus x => (buildTerm x).map (fun t => .multiplication (-1) [t] [])
  | .binaryPlus l r => do
      let tl ← buildTerm l
      let tr ← buildTerm r
      .ok (.addition 0 [tl, tr] [])
  | .binaryMinus l r => do
      let tl ← buildTerm l
      let tr ← buildTerm r
      .ok (.addition 0 [tl] [tr])
  | .binaryAsterisk l r => do
      let tl ← buildTerm l
      let tr ← buildTerm r
      .ok (.multiplication 1 [tl, tr] [])
  | .binarySlash l r => do
      let tl ← buildTerm l
      let tr ← buildTerm r
      .ok (.multiplication 1 [tl] [tr])
  | .binaryCaret l r => do
      let tl ← buildTerm l
      let tr ← buildTerm r
      .ok (.exponentiation tl tr)

/-- An `Expression`: either a parsed syntax tree or the stored
`ParseException` (message and 0-based character position), surfaced when
the tree is walked. -/
structure Expression where
  ast : Except (String × Nat) Ast
deriving Repr

/-- The compiler's accumulated symbol state (`Compiler::Context`). -/
structure Context where
  publicSymbols : List Symbol
  outputSymbols : List (String × Expression)
deriving Repr

/-- `Compiler::makeGraph`: build one `Output` per output symbol, wrapping
any failure (a stored parse error rendered by `Expression::visitAst` with
its 1-based character position, or a builder error) with the output's
name; collect the outputs in a `Sequence`. -/
def makeGraph (ctx : Context) : Except String Term := do
  let outputs ← ctx.outputSymbols.foldlM (fun (acc : List Term) p => do
    let t ←
      match p.2.ast with
      | .error e =>
          .error ("Output '" ++ p.1 ++ "': " ++ e.1 ++ " at character " ++ natRepr (e.2 + 1))
      | .ok ast =>
          match buildTerm ast with
          | .error msg => .error ("Output '" ++ p.1 ++ "': " ++ msg)
          | .ok t => (.ok t : Except String Term)
    .ok (acc ++ [Term.output p.1 t])) []
  .ok (Term.sequence outputs)

/-- `Compiler::compile`: build the graph, run the default rewrite pipeline,
generate code against the public symbols.  The fuel threads the embedding's
recursion bound; exhaustion (`none`) is an artifact of the embedding, not a
C++ behaviour. -/
def compile (fnE : FnId → Real → Real) (pw : Real → Real → Real) (fuel : Nat)
    (ctx : Context) : Except String Program := do
  let graph ← makeGraph ctx
  match pipelineRun fnE pw fuel graph with
  | none => .error "embedding: out of fuel"
  | some transformedGraph => generate transformedGraph ctx.publicSymbols

/-- `Compiler::compile` as a state transition on the compiler's symbol
state.  The method is declared `const`; its call tree (`makeGraph`, the
freshly constructed `Transform`, `compileGraph`) only reads the context, so
the translated transition returns the context unchanged alongside the
result. -/
def compileStep (fnE : FnId → Real → Real) (pw : Real → Real → Real) (fuel : Nat)
    (ctx : Context) : Context × Except String Program :=
  (ctx, compile fnE pw fuel ctx)

/-! ## The scalar interpreter (`Program.cpp`: `SCALAR_FUNCTIONS` and
`makeExecutable`)

`makeExecutable` wires, for instruction `i`: `output` to slot
`memoryOffset + i`, `input` to `memory[operand]`, `extraInput` to
`memory[source]`, the immediate or callable payload, and for `SINCOS`
`extraOutput` to slot `memoryOffset + (i + target)`.  `NOP` instructions
are skipped when the call chain is built; executing them as the identity is
observationally the same.  Memory is a total map from addresses. -/

def writeMem (m : Nat → Real) (a : Nat) (v : Real) : Nat → Real :=
  fun x => if x = a then v else m x

/-- One instruction of `SCALAR_FUNCTIONS` (opcode kernels).  `SINCOS`
writes the sine to its own slot and the cosine to the displaced slot, in
that order (on a zero displacement the cosine lands last, as in C++). -/
def execInstr (fnE : FnId → Real → Real) (pw : Real → Real → Real)
    (off i : Nat) (ins : Instr) (m : Nat → Real) : Nat → Real :=
  match ins.opcode with
  | .nop => m
  | .add => writeMem m (off + i) (m ins.extra.getSrc + m ins.operand)
  | .addImm => writeMem m (off + i) (ins.extra.getImm + m ins.operand)
  | .subtract => writeMem m (off + i) (m ins.extra.getSrc - m ins.operand)
  | .subtractImm => writeMem m (off + i) (ins.extra.getImm - m ins.operand)
  | .multiply => writeMem m (off + i) (m ins.extra.getSrc * m ins.operand)
  | .multiplyImm => writeMem m (off + i) (ins.extra.getImm * m ins.operand)
  | .divide => writeMem m (off + i) (m ins.extra.getSrc / m ins.operand)
  | .divideImm => writeMem m (off + i) (ins.extra.getImm / m ins.operand)
  | .power => writeMem m (off + i) (pw (m ins.extra.getSrc) (m ins.operand))
  | .call => writeMem m (off + i) (fnE ins.extra.getFn (m ins.operand))
  | .sin => writeMem m (off + i) (fnE .sin (m ins.operand))
  | .cos => writeMem m (off + i) (fnE .cos (m ins.operand))
  | .sincos =>
      let a := m ins.operand
      writeMem (writeMem m (off + i) (fnE .sin a))
        (off + i + ins.extra.getDisp).toNat (fnE .cos a)

/-- `Executable::run` from instruction index `i` on: straight-line
execution in list order. -/
def runFrom (fnE : FnId → Real → Real) (pw : Real → Real → Real) (off : Nat) :
    Nat → List Instr → (Nat → Real) → (Nat → Real)
  | _, [], m => m
  | i, ins :: rest, m => runFrom fnE pw off (i + 1) rest (execInstr fnE pw off i ins m)

/-- A full `run` of a program's instruction list. -/
def runProgram (fnE : FnId → Real → Real) (pw : Real → Real → Real)
    (p : Program) (m : Nat → Real) : Nat → Real :=
  runFrom fnE pw p.instructionsOffset 0 p.instructions m

/-- The freshly allocated executable memory: zero words with the constants
copied to their slots (`memory.resize` + `std::copy` in
`makeExecutable`). -/
def initMemory (p : Program) : Nat → Real := fun a =>
  if p.constantsOffset ≤ a ∧ a < p.constantsOffset + p.constantsValues.length then
    p.constantsValues.getD (a - p.constantsOffset) 0
  else 0

/-! ## Concrete compile scenarios and claims -/

/-- A sample host-function meaning, for witnesses. -/
def sampleFnEval : FnId → Real → Real := fun _ x => x + 1

/-- A sample `std::pow` meaning, for witnesses. -/
def samplePow : Real → Real → Real := fun a b => a * b

/-- The S5 script `param k=3`, `input x`, `output y = (x+2)-(x-(1+k))`:
the output expression as parsed by the (external) expression grammar, with
value symbols resolved. -/
def astS5 : Ast := .binaryMinus
  (.binaryPlus (.value (.variableSymbol "x")) (.literal 2))
  (.binaryMinus (.value (.variableSymbol "x"))
    (.binaryPlus (.literal 1) (.value (.parameterSymbol "k" 3))))

def ctxS5 : Context :=
  { publicSymbols := [.parameterSymbol "k" 3, .variableSymbol "x"],
    outputSymbols := [("y", { ast := .ok astS5 })] }

/-- The S1 script `input x`, `output y = x + 0`. -/
def astS1 : Ast := .binaryPlus (.value (.variableSymbol "x")) (.literal 0)

def ctxS1 : Context :=
  { publicSymbols := [.variableSymbol "x"],
    outputSymbols := [("y", { ast := .ok astS1 })] }

/-- A compiler holding one runtime variable and no outputs at all. -/
def ctxUnusedVariable : Context :=
  { publicSymbols := [.variableSymbol "x"], outputSymbols := [] }

/-- A context whose sole output carries a stored parse error. -/
def ctxParseError : Context :=
  { publicSymbols := [],
    outputSymbols := [("y", { ast := .error ("Unexpected token", 3) })] }

/-- A context whose sole output is the bare input `x`: its graph is the
singleton root `Sequence` over one `Output`. -/
def ctxC6 : Context :=
  { publicSymbols := [.variableSymbol "x"],
    outputSymbols := [("y", { ast := .ok (.value (.variableSymbol "x")) })] }

/-- The pre-fusion `CALL`-sin / `CALL`-cos pair on one operand used by the
C5 witness. -/
def sincosPre : List Instr :=
  [ { opcode := .call, operand := 0, extra := .fn .sin },
    { opcode := .call, operand := 0, extra := .fn .cos } ]

/-- A small program with a fused `SINCOS`/`NOP` pair followed by an `ADD`,
for witnesses: one input at 0, one constant at 1, code section at 2. -/
def progSincos : Program :=
  { inputs := [("x", 0)], outputs := [("s", 2)],
    constantsOffset := 1, constantsValues := [5],
    instructionsOffset := 2,
    instructions :=
      [ { opcode := .sincos, operand := 0, extra := .disp 1 },
        { opcode := .nop, operand := 0, extra := .unset },
        { opcode := .add, operand := 2, extra := .src 3 } ] }

/-- Claim C2: compiling `param k=3`, `input x`, `output y = (x+2)-(x-(1+k))`
constant-folds the whole expression to 6: in the resulting program the
output `y` is bound to a constant-section slot holding the value 6.0.  The
script calls no host function and has no exponentiation, so the meanings of
the registered functions and of `std::pow` cannot influence the result;
they are instantiated with the fixed sample meanings. -/
theorem compile_S5_binds_y_to_constant_six :
    ∃ p : Program, compile sampleFnEval samplePow 200 ctxS5 = .ok p ∧
      ∃ a, p.outputs = [("y", a)] ∧
        p.constantsOffset ≤ a ∧ a < p.constantsOffset + p.constantsValues.length ∧
        p.constantsValues[a - p.constantsOffset]? = some 6 := by
  refine ⟨{ inputs := [("x", 0)], outputs := [("y", 1)], constantsOffset := 1,
            constantsValues := [6], instructionsOffset := 2, instructions := [] },
          ?_, 1, rfl, ?_, ?_, rfl⟩
  · rfl
  · norm_num
  · norm_num

/-- Claim C3: compiling `input x`, `output y = x + 0` produces a program
with one input `x` at some address and the output `y` bound to that same
address, with zero instructions emitted beyond the data section.  The
script calls no host function and has no exponentiation, so the meanings of
the registered functions and of `std::pow` cannot influence the result;
they are instantiated with the fixed sample meanings. -/
theorem compile_S1_identity_reduction :
    ∃ p : Program, compile sampleFnEval samplePow 200 ctxS1 = .ok p ∧
      ∃ a, p.inputs = [("x", a)] ∧ p.outputs = [("y", a)] ∧ p.instructions = [] := by
  refine ⟨{ inputs := [("x", 1)], outputs := [("y", 1)], constantsOffset := 2,
            constantsValues := [], instructionsOffset := 2, instructions := [] },
          ?_, 1, rfl, rfl, rfl⟩
  rfl

/-- Claim C7: `Exponentiation::evaluateConstant`: a base evaluating to the
constant 0 yields 1 for every exponent, including non-constant ones;
otherwise a constant base `b` and constant exponent `e` yield `pow(b, e)`;
in all remaining cases the term is reported non-constant. -/
theorem exponentiation_evaluateConstant_cases (fnE : FnId → Real → Real)
    (pw : Real → Real → Real) (b e : Term) :
    (b.evaluateConstant fnE pw = some 0 →
      (Term.exponentiation b e).evaluateConstant fnE pw = some 1) ∧
    (∀ vb ve, b.evaluateConstant fnE pw = some vb → vb ≠ 0 →
      e.evaluateConstant fnE pw = some ve →
      (Term.exponentiation b e).evaluateConstant fnE pw = some (pw vb ve)) ∧
    ((b.evaluateConstant fnE pw = none ∨
      (∃ vb, b.evaluateConstant fnE pw = some vb ∧ vb ≠ 0 ∧
        e.evaluateConstant fnE pw = none)) →
      (Term.exponentiation b e).evaluateConstant fnE pw = none) := by
  refine ⟨?_, ?_, ?_⟩
  · intro hb
    simp [Term.evaluateConstant, hb]
  · intro vb ve hb hvb he
    simp [Term.evaluateConstant, hb, he, hvb]
  · rintro (hb | ⟨vb, hb, hvb, he⟩)
    · simp [Term.evaluateConstant, hb]
    · simp [Term.evaluateConstant, hb, he, hvb]

/-- Witness for C7: the base constant 0 with a non-constant exponent
evaluates to 1. -/
theorem exponentiation_evaluateConstant_cases_witness :
    (Term.exponentiation (.constant 0) (.input "x")).evaluateConstant
      sampleFnEval samplePow = some 1 :=
  (exponentiation_evaluateConstant_cases sampleFnEval samplePow
    (.constant 0) (.input "x")).1 rfl

/-- Claim C8 (failing case): compiling a context with a declared variable
and no outputs gathers no terms, so neither memory offset is ever set (both
stay 0) and the unused variable is mapped to the scratchpad; the resulting
program has an input at address 0 = instructions offset, violating the
layout invariant the `Program` constructor asserts. -/
theorem compile_no_outputs_violates_layout (fnE : FnId → Real → Real)
    (pw : Real → Real → Real) :
    ∃ p : Program, compile fnE pw 200 ctxUnusedVariable = .ok p ∧
      p.inputs = [("x", SCRATCHPAD_ADDRESS)] ∧ p.instructionsOffset = 0 ∧
      ¬ p.layoutInvariant := by
  refine ⟨{ inputs := [("x", 0)], outputs := [], constantsOffset := 0,
            constantsValues := [], instructionsOffset := 0, instructions := [] },
          rfl, rfl, rfl, ?_⟩
  rintro ⟨-, hin, -⟩
  have h := hin ("x", 0) (by simp)
  exact absurd h.1 (by simp)

/-- Claim C9: `Compiler::compile` is `const` and its call tree only reads
the accumulated symbol state; in particular when it fails, the state
transition leaves the context exactly as it was. -/
theorem compile_failure_preserves_context (fnE : FnId → Real → Real)
    (pw : Real → Real → Real) (fuel : Nat) (ctx : Context) (e : String)
    (_h : (compileStep fnE pw fuel ctx).2 = .error e) :
    (compileStep fnE pw fuel ctx).1 = ctx := rfl

/-- Witness for C9: a compile failing on a stored parse error leaves the
context unchanged. -/
theorem compile_failure_preserves_context_witness :
    (compileStep sampleFnEval samplePow 200 ctxParseError).2 =
      .error "Output 'y': Unexpected token at character 4" ∧
    (compileStep sampleFnEval samplePow 200 ctxParseError).1 = ctxParseError :=
  ⟨rfl, compile_failure_preserves_context sampleFnEval samplePow 200 ctxParseError
    "Output 'y': Unexpected token at character 4" rfl⟩

/-- `charListLt` is asymmetric: two character lists cannot each be strictly
below the other. -/
theorem charListLt_asymm :
    ∀ x y : List Char, charListLt x y = true → charListLt y x = false
  | x, [], h => by cases x <;> simp [charListLt] at h
  | [], _ :: _, _ => rfl
  | c1 :: r1, c2 :: r2, h => by
      simp only [charListLt] at h ⊢
      by_cases h1 : c1.toNat < c2.toNat
      · rw [if_neg (by omega), if_pos h1]
      · by_cases h2 : c2.toNat < c1.toNat
        · rw [if_neg h1, if_pos h2] at h
          exact absurd h (by simp)
        · rw [if_neg h1, if_neg h2] at h
          rw [if_neg h2, if_neg h1]
          exact charListLt_asymm r1 r2 h

/-- The boolean `¬(b < a)` order on strings is total. -/
theorem strLe_total (a b : String) :
    (!(strLt b a)) = true ∨ (!(strLt a b)) = true := by
  cases hb : strLt b a
  · left; rfl
  · right
    have h := charListLt_asymm b.data a.data hb
    simp [strLt, h]

/-- Inserting into a list sorted under a total boolean `le` keeps it
sorted. -/
theorem chain_insertSorted {A : Type} (le : A → A → Bool)
    (htot : ∀ x y, le x y = true ∨ le y x = true) (a : A) :
    ∀ l : List A, List.Chain' (fun x y => le x y = true) l →
      List.Chain' (fun x y => le x y = true) (insertSorted le a l)
  | [], _ => List.chain'_singleton a
  | b :: l, hc => by
      rw [insertSorted]
      by_cases hab : le a b = true
      · rw [if_pos hab]
        exact List.chain'_cons.mpr ⟨hab, hc⟩
      · rw [if_neg hab]
        have hba : le b a = true := (htot a b).resolve_left hab
        have hrec := chain_insertSorted le htot a l hc.tail
        cases l with
        | nil => exact List.chain'_cons.mpr ⟨hba, List.chain'_singleton a⟩
        | cons c l2 =>
            rw [insertSorted] at hrec ⊢
            by_cases hac : le a c = true
            · rw [if_pos hac] at hrec ⊢
              exact List.chain'_cons.mpr ⟨hba, hrec⟩
            · rw [if_neg hac] at hrec ⊢
              exact List.chain'_cons.mpr ⟨(List.chain'_cons.mp hc).1, hrec⟩

/-- The output of the insertion sort is sorted, for a total boolean
`le`. -/
theorem chain_sortByBool {A : Type} (le : A → A → Bool)
    (htot : ∀ x y, le x y = true ∨ le y x = true) :
    ∀ l : List A, List.Chain' (fun x y => le x y = true) (sortByBool le l)
  | [] => List.chain'_nil
  | a :: l => by
      rw [sortByBool]
      exact chain_insertSorted le htot a _ (chain_sortByBool le htot l)

/-- Sorting a sorted list returns it unchanged. -/
theorem sortByBool_sorted_id {A : Type} (le : A → A → Bool) :
    ∀ l : List A, List.Chain' (fun x y => le x y = true) l → sortByBool le l = l
  | [], _ => rfl
  | a :: l, hc => by
      rw [sortByBool, sortByBool_sorted_id le l hc.tail]
      cases l with
      | nil => rfl
      | cons b l2 =>
          rw [insertSorted, if_pos (List.chain'_cons.mp hc).1]

/-- `sortStrings` is idempotent. -/
theorem sortStrings_idem (l : List String) :
    sortStrings (sortStrings l) = sortStrings l := by
  rw [sortStrings, sortStrings, sortByBool_sorted_id]
  exact chain_sortByBool _ (fun x y => strLe_total x y) l

/-- Inserting a term into a list sorted by key inserts its key into the key
list. -/
theorem keyList_insertSorted (t : Term) :
    ∀ l : List Term,
      keyList (insertSorted (fun a b => !(strLt (Term.key b) (Term.key a))) t l) =
        insertSorted (fun a b => !(strLt b a)) t.key (keyList l)
  | [] => rfl
  | u :: l => by
      simp only [keyList, insertSorted]
      by_cases h : (!(strLt (Term.key u) (Term.key t))) = true
      · rw [if_pos h, if_pos h]
        simp [keyList]
      · rw [if_neg h, if_neg h]
        simp [keyList, keyList_insertSorted t l]

/-- The key list of a key-sorted term list is the sorted key list. -/
theorem keyList_sortByKeyLex :
    ∀ l : List Term, keyList (sortByKeyLex l) = sortStrings (keyList l)
  | [] => rfl
  | t :: l => by
      simp only [sortByKeyLex, sortByBool, keyList, sortStrings]
      rw [keyList_insertSorted]
      have hrec := keyList_sortByKeyLex l
      simp only [sortByKeyLex, sortStrings] at hrec
      rw [hrec]

mutual

/-- Canonicalisation does not change the key: the key sorts the children's
keys itself, so sorting the children first is absorbed. -/
theorem key_canonTerm : ∀ t : Term, Term.key (canonTerm t) = Term.key t
  | .constant _ => rfl
  | .input _ => rfl
  | .output n t => by
      simp only [canonTerm, Term.key, key_canonTerm t]
  | .unaryFunction f a => by
      simp only [canonTerm, Term.key, key_canonTerm a]
  | .addition c pos neg => by
      simp only [canonTerm, Term.key, keyList_sortByKeyLex,
        key_canonList pos, key_canonList neg, sortStrings_idem]
  | .multiplication c pos neg => by
      simp only [canonTerm, Term.key, keyList_sortByKeyLex,
        key_canonList pos, key_canonList neg, sortStrings_idem]
  | .exponentiation b e => by
      simp only [canonTerm, Term.key, key_canonTerm b, key_canonTerm e]
  | .squaring b => by
      simp only [canonTerm, Term.key, key_canonTerm b]
  | .sequence ts => by
      simp only [canonTerm, Term.key, key_canonList ts]

theorem key_canonList : ∀ l : List Term, keyList (canonList l) = keyList l
  | [] => rfl
  | t :: ts => by
      simp only [canonList, keyList, key_canonTerm t, key_canonList ts]

end

/-- Claim C6 counterexample: the graph built for a context with the single
output `y = x` is the root `Sequence` over one `Output`; that root and its
`Output` child are terms of different kinds (they stay different under the
commutativity canonicalisation), yet their keys are equal — a
`Sequence` key is the `|`-join of its children's keys, which for a single
child is that child's key verbatim.  This refutes the claimed "keys of two
terms of different kinds are never equal" for terms reachable from a graph
root. -/
theorem key_collision_sequence_output :
    makeGraph ctxC6 = .ok (Term.sequence [Term.output "y" (Term.input "x")]) ∧
    Term.key (Term.sequence [Term.output "y" (Term.input "x")]) =
      Term.key (Term.output "y" (Term.input "x")) ∧
    canonTerm (Term.sequence [Term.output "y" (Term.input "x")]) ≠
      canonTerm (Term.output "y" (Term.input "x")) := by
  refine ⟨rfl, rfl, ?_⟩
  intro h
  simp only [canonTerm, canonList] at h
  exact Term.noConfusion h

/-- Claim C6 (amended): the sound direction holds — terms that agree up to
reordering the positive and negative child lists of `Addition` and
`Multiplication` nodes (equal canonical forms) have equal keys — but key
equality does not imply same kind: a `Sequence` key is the sorted `|`-join
of its children's keys, so a singleton `Sequence` (such as a single-output
root) has exactly the key of its child.  `Merge` exploits precisely this
collision to coalesce the root with its only output. -/
theorem key_respects_commutative_equivalence :
    (∀ a b : Term, canonTerm a = canonTerm b → Term.key a = Term.key b) ∧
    (∀ t : Term, Term.key (Term.sequence [t]) = Term.key t) := by
  constructor
  · intro a b h
    rw [← key_canonTerm a, ← key_canonTerm b, h]
  · intro t
    rfl

/-- Witness for the amended C6: two additions with the same children listed
in different orders have equal canonical forms, hence equal keys. -/
theorem key_respects_commutative_equivalence_witness :
    Term.key (Term.addition 0 [Term.input "x", Term.constant 2] []) =
      Term.key (Term.addition 0 [Term.constant 2, Term.input "x"] []) :=
  key_respects_commutative_equivalence.1
    (Term.addition 0 [Term.input "x", Term.constant 2] [])
    (Term.addition 0 [Term.constant 2, Term.input "x"] []) (by rfl)

/-- `lastCallIdx` returns an in-range index holding a `CALL` of the given
function on the given operand. -/
theorem lastCallIdx_spec (f : FnId) (a : Nat) :
    ∀ (l : List Instr) (k : Nat), lastCallIdx f a l = some k →
      k < l.length ∧ ∃ ins, l[k]? = some ins ∧
        ins.opcode = .call ∧ ins.extra.getFn = f ∧ ins.operand = a
  | [], k, h => by simp [lastCallIdx] at h
  | i :: rest, k, h => by
      rw [lastCallIdx] at h
      cases hr : lastCallIdx f a rest with
      | some k2 =>
          rw [hr] at h
          obtain ⟨hlt, ins, hins, hprops⟩ := lastCallIdx_spec f a rest k2 hr
          injection h with h
          subst h
          refine ⟨by simp only [List.length_cons]; omega, ins, ?_, hprops⟩
          simpa using hins
      | none =>
          rw [hr] at h
          by_cases hc : i.opcode = .call ∧ i.extra.getFn = f ∧ i.operand = a
          · rw [if_pos hc] at h
            injection h with h
            subst h
            exact ⟨by simp, i, by simp, hc.1, hc.2.1, hc.2.2⟩
          · rw [if_neg hc] at h
            exact absurd h (by simp)

/-- Unfolding of a positive `fusedCos` verdict. -/
theorem fusedCos_spec (instrs : List Instr) (j i a : Nat)
    (h : fusedCos instrs j = some (i, a)) :
    ∃ insj, instrs[j]? = some insj ∧ insj.opcode = .call ∧
      insj.extra.getFn = .cos ∧ insj.operand = a ∧
      lastCallIdx .cos a instrs = some j ∧ lastCallIdx .sin a instrs = some i := by
  rw [fusedCos] at h
  cases hj : instrs[j]? with
  | none => rw [hj] at h; simp at h
  | some ins =>
      rw [hj] at h
      dsimp only at h
      by_cases hc : ins.opcode = .call ∧ ins.extra.getFn = .cos ∧
          lastCallIdx .cos ins.operand instrs = some j
      · rw [if_pos hc] at h
        cases hs : lastCallIdx .sin ins.operand instrs with
        | none => rw [hs] at h; exact absurd h (by simp)
        | some i2 =>
            rw [hs] at h
            injection h with hpair
            injection hpair with h1 h2
            subst h1
            subst h2
            exact ⟨ins, rfl, hc.1, hc.2.1, rfl, hc.2.2, hs⟩
      · rw [if_neg hc] at h
        exact absurd h (by simp)

/-- A `fusedCos` verdict from its ingredients. -/
theorem fusedCos_of (instrs : List Instr) (j i a : Nat) (insj : Instr)
    (hj : instrs[j]? = some insj) (hop : insj.opcode = .call)
    (hfn : insj.extra.getFn = .cos) (hopd : insj.operand = a)
    (hcos : lastCallIdx .cos a instrs = some j)
    (hsin : lastCallIdx .sin a instrs = some i) :
    fusedCos instrs j = some (i, a) := by
  rw [fusedCos, hj]
  dsimp only
  rw [if_pos ⟨hop, hfn, by rw [hopd]; exact hcos⟩, hopd, hsin]

/-- A negative `fusedCos` verdict for an index whose instruction is not a
fused cos call. -/
theorem fusedCos_none (instrs : List Instr) (j : Nat) (insj : Instr)
    (hj : instrs[j]? = some insj)
    (hc : ¬ (insj.opcode = .call ∧ insj.extra.getFn = .cos ∧
          lastCallIdx .cos insj.operand instrs = some j)) :
    fusedCos instrs j = none := by
  rw [fusedCos, hj]
  dsimp only
  rw [if_neg hc]

/-- The fused instruction list is index-for-index the rewrite of the
original. -/
theorem generateIntrinsics_getElem (instrs : List Instr) (k : Nat)
    (ins : Instr) (h : instrs[k]? = some ins) :
    (generateIntrinsics instrs)[k]? = some (fuseAt instrs k ins) := by
  have hk : k < instrs.length := by
    by_contra hk
    rw [List.getElem?_eq_none (by omega)] at h
    exact absurd h (by simp)
  rw [generateIntrinsics, List.getElem?_map, List.getElem?_range hk]
  simp [h]

theorem generateIntrinsics_length (instrs : List Instr) :
    (generateIntrinsics instrs).length = instrs.length := by
  simp [generateIntrinsics]

/-- `instrValue` only looks at the addresses in `instrReads`. -/
theorem instrValue_congr (fnE : FnId → Real → Real) (pw : Real → Real → Real)
    (ins : Instr) (m1 m2 : Nat → Real)
    (h : ∀ r ∈ instrReads ins, m1 r = m2 r) :
    instrValue fnE pw ins m1 = instrValue fnE pw ins m2 := by
  cases hop : ins.opcode <;> simp only [instrValue, hop]
  all_goals
    (try rw [h ins.extra.getSrc (by simp [instrReads, hop])]);
      rw [h ins.operand (by simp [instrReads, hop])]

/-- Outside `NOP` and `SINCOS`, an instruction writes exactly its own slot
with its `instrValue`. -/
theorem execInstr_eq_write (fnE : FnId → Real → Real) (pw : Real → Real → Real)
    (off k : Nat) (ins : Instr) (m : Nat → Real)
    (h1 : ins.opcode ≠ .nop) (h2 : ins.opcode ≠ .sincos) :
    execInstr fnE pw off k ins m = writeMem m (off + k) (instrValue fnE pw ins m) := by
  cases hop : ins.opcode <;>
    first
      | (exact absurd hop h1)
      | (exact absurd hop h2)
      | simp only [execInstr, instrValue, hop]

/-- Under the read discipline, `slotVal` is independent of the fuel once the
fuel exceeds the slot index. -/
theorem slotVal_stable (fnE : FnId → Real → Real) (pw : Real → Real → Real)
    (instrs : List Instr) (off : Nat) (m0 : Nat → Real)
    (hreads : ∀ k ins, instrs[k]? = some ins → ∀ r ∈ instrReads ins, r < off + k) :
    ∀ s f1 f2, s < f1 → s < f2 →
      slotVal fnE pw instrs off m0 f1 s = slotVal fnE pw instrs off m0 f2 s := by
  intro s
  induction s using Nat.strong_induction_on with
  | _ s IH =>
      intro f1 f2 h1 h2
      obtain ⟨g1, rfl⟩ : ∃ g1, f1 = g1 + 1 := ⟨f1 - 1, by omega⟩
      obtain ⟨g2, rfl⟩ : ∃ g2, f2 = g2 + 1 := ⟨f2 - 1, by omega⟩
      rw [slotVal, slotVal]
      cases hs : instrs[s]? with
      | none => rfl
      | some ins =>
          refine instrValue_congr _ _ _ _ _ ?_
          intro r hr
          have hrb := hreads s ins hs r hr
          by_cases hro : r < off
          · simp [hro]
          · simp only [if_neg hro]
            exact IH (r - off) (by omega) g1 g2 (by omega) (by omega)

/-- Running an instruction list that writes each slot with its own
instruction (no `NOP`, no `SINCOS`) under the generated-code read
discipline computes `slotVal` in every code slot and leaves every other
address at its initial value. -/
theorem runFrom_slotVal_aux (fnE : FnId → Real → Real) (pw : Real → Real → Real)
    (instrs : List Instr) (off : Nat) (m0 : Nat → Real)
    (hreads : ∀ k ins, instrs[k]? = some ins → ∀ r ∈ instrReads ins, r < off + k)
    (hplain : ∀ (k : Nat) (ins : Instr), instrs[k]? = some ins →
        ins.opcode ≠ .nop ∧ ins.opcode ≠ .sincos) :
    ∀ (rest : List Instr) (k : Nat) (P : Nat → Real),
      instrs.drop k = rest →
      (∀ addr, P addr =
        if off ≤ addr ∧ addr < off + k ∧ addr < off + instrs.length then
          slotVal fnE pw instrs off m0 (addr - off + 1) (addr - off)
        else m0 addr) →
      ∀ addr, runFrom fnE pw off k rest P addr =
        if off ≤ addr ∧ addr < off + instrs.length then
          slotVal fnE pw instrs off m0 (addr - off + 1) (addr - off)
        else m0 addr
  | [], k, P, hdrop, hP, addr => by
      have hlen : instrs.length ≤ k := by
        have h := congrArg List.length hdrop
        simp only [List.length_drop, List.length_nil] at h
        omega
      rw [runFrom, hP addr]
      by_cases hc : off ≤ addr ∧ addr < off + instrs.length
      · rw [if_pos ⟨hc.1, by omega, hc.2⟩, if_pos hc]
      · rw [if_neg (fun h => hc ⟨h.1, h.2.2⟩), if_neg hc]
  | ins :: rest, k, P, hdrop, hP, addr => by
      have hk : instrs[k]? = some ins := by
        have h := congrArg (fun l => l[0]?) hdrop
        simpa [List.getElem?_drop] using h
      have hkl : k < instrs.length := by
        by_contra hkl
        rw [List.getElem?_eq_none (by omega)] at hk
        exact absurd hk (by simp)
      have hdrop2 : instrs.drop (k + 1) = rest := by
        have h := congrArg List.tail hdrop
        simpa [List.tail_drop] using h
      have hpk := hplain k ins hk
      rw [runFrom]
      refine runFrom_slotVal_aux fnE pw instrs off m0 hreads hplain rest (k + 1) _
        hdrop2 ?_ addr
      intro a
      rw [execInstr_eq_write fnE pw off k ins P hpk.1 hpk.2]
      simp only [writeMem]
      by_cases ha : a = off + k
      · subst ha
        rw [if_pos rfl, if_pos ⟨by omega, by omega, by omega⟩]
        have hsub : off + k - off = k := by omega
        rw [hsub, slotVal, hk]
        dsimp only
        refine instrValue_congr fnE pw ins P _ ?_
        intro r hr
        have hrb := hreads k ins hk r hr
        by_cases hro : r < off
        · rw [if_pos hro, hP r, if_neg (by omega)]
        · rw [if_neg hro, hP r, if_pos ⟨by omega, by omega, by omega⟩]
          exact slotVal_stable fnE pw instrs off m0 hreads (r - off)
            (r - off + 1) k (by omega) (by omega)
      · rw [if_neg ha, hP a]
        by_cases hc : off ≤ a ∧ a < off + k ∧ a < off + instrs.length
        · rw [if_pos hc, if_pos ⟨hc.1, by omega, hc.2.2⟩]
        · rw [if_neg hc, if_neg (fun h => hc ⟨h.1, by omega, h.2.2⟩)]

/-- The full pre-fusion run, slot by slot. -/
theorem runFrom_slotVal (fnE : FnId → Real → Real) (pw : Real → Real → Real)
    (instrs : List Instr) (off : Nat) (m0 : Nat → Real)
    (hreads : ∀ k ins, instrs[k]? = some ins → ∀ r ∈ instrReads ins, r < off + k)
    (hplain : ∀ (k : Nat) (ins : Instr), instrs[k]? = some ins →
        ins.opcode ≠ .nop ∧ ins.opcode ≠ .sincos)
    (addr : Nat) :
    runFrom fnE pw off 0 instrs m0 addr =
      if off ≤ addr ∧ addr < off + instrs.length then
        slotVal fnE pw instrs off m0 (addr - off + 1) (addr - off)
      else m0 addr :=
  runFrom_slotVal_aux fnE pw instrs off m0 hreads hplain instrs 0 m0 rfl
    (fun a => by rw [if_neg (by omega)]) addr

/-- A plain opcode is neither `NOP` nor an intrinsic. -/
theorem plainOp_ne (o : Opcode) (h : plainOp o = true) :
    o ≠ .nop ∧ o ≠ .sincos := by
  cases o <;> simp_all [plainOp]

/-- `instrValue` of a `CALL`. -/
theorem instrValue_call (fnE : FnId → Real → Real) (pw : Real → Real → Real)
    (ins : Instr) (m : Nat → Real) (h : ins.opcode = .call) :
    instrValue fnE pw ins m = fnE ins.extra.getFn (m ins.operand) := by
  simp only [instrValue, h]

/-- `instrReads` of a `CALL`. -/
theorem instrReads_call (ins : Instr) (h : ins.opcode = .call) :
    instrReads ins = [ins.operand] := by
  simp only [instrReads, h]

/-- A slot read by an instruction of the post-fusion run is already
written: either its own instruction came earlier, or it is a fused cos slot
whose partner `SINCOS` came earlier (reading it in between is excluded by
the read discipline and the no-read-between hypothesis). -/
theorem writtenBy_of_read (instrs : List Instr) (off : Nat)
    (hreads : ∀ (k : Nat) (ins : Instr), instrs[k]? = some ins →
        ∀ r ∈ instrReads ins, r < off + k)
    (h2 : ∀ (j : Nat) (p : Nat × Nat), fusedCos instrs j = some p →
        ∀ (k : Nat) (ins : Instr), j < k → k < p.1 → instrs[k]? = some ins →
        off + j ∉ instrReads ins)
    (k : Nat) (ins : Instr) (hk : instrs[k]? = some ins)
    (r : Nat) (hr : r ∈ instrReads ins) (hro : off ≤ r) :
    writtenBy instrs k (r - off) = true := by
  have hrb := hreads k ins hk r hr
  rw [writtenBy]
  cases hf : fusedCos instrs (r - off) with
  | none => dsimp only; simp only [decide_eq_true_eq]; omega
  | some p =>
      obtain ⟨i2, a2⟩ := p
      dsimp only
      simp only [decide_eq_true_eq]
      by_contra hlt
      push_neg at hlt
      rcases Nat.lt_or_ge k i2 with hki | hki
      · exact h2 (r - off) (i2, a2) hf k ins (by omega) hki hk
          (by rwa [Nat.add_sub_cancel' hro])
      · have hk2 : k = i2 := by omega
        obtain ⟨insj2, hj2, hcall2, hfn2, hopd2, hcos2, hsin2⟩ :=
          fusedCos_spec instrs (r - off) i2 a2 hf
        obtain ⟨hi2lt, ins3, hins3, hop3, hfn3, hopd3⟩ :=
          lastCallIdx_spec .sin a2 instrs i2 hsin2
        rw [← hk2, hk] at hins3
        injection hins3 with hins3
        subst hins3
        rw [instrReads_call ins hop3] at hr
        simp only [List.mem_singleton] at hr
        have hra : r = a2 := by rw [hr, hopd3]
        have hb2 := hreads (r - off) insj2 hj2 a2
          (by rw [instrReads_call insj2 hcall2, hopd2]; simp)
        omega

/-- Under the post-fusion invariant, the value an instruction reads is the
final value of what it reads. -/
theorem postInv_read_val (fnE : FnId → Real → Real) (pw : Real → Real → Real)
    (instrs : List Instr) (off : Nat) (m0 : Nat → Real)
    (hreads : ∀ (k : Nat) (ins : Instr), instrs[k]? = some ins →
        ∀ r ∈ instrReads ins, r < off + k)
    (h2 : ∀ (j : Nat) (p : Nat × Nat), fusedCos instrs j = some p →
        ∀ (k : Nat) (ins : Instr), j < k → k < p.1 → instrs[k]? = some ins →
        off + j ∉ instrReads ins)
    (k : Nat) (ins : Instr) (hk : instrs[k]? = some ins) (Q : Nat → Real)
    (hQ : postInv fnE pw instrs off m0 k Q)
    (r : Nat) (hr : r ∈ instrReads ins) :
    Q r = if r < off then m0 r
      else slotVal fnE pw instrs off m0 (r - off + 1) (r - off) := by
  have hrb := hreads k ins hk r hr
  have hkl : k < instrs.length := by
    by_contra hkl
    rw [List.getElem?_eq_none (by omega)] at hk
    exact absurd hk (by simp)
  by_cases hro : r < off
  · rw [if_pos hro, hQ r, if_neg (fun hcc => by have := hcc.1; omega)]
  · rw [if_neg hro, hQ r, if_pos ⟨by omega, by omega,
      writtenBy_of_read instrs off hreads h2 k ins hk r hr (by omega)⟩]

/-- The value an instruction computes from the post-fusion memory is the
`slotVal` of the slot it stands for, whenever its reads are a subset of the
reads of the instruction currently executing. -/
theorem instrValue_Q_slotVal (fnE : FnId → Real → Real) (pw : Real → Real → Real)
    (instrs : List Instr) (off : Nat) (m0 : Nat → Real)
    (hreads : ∀ (k : Nat) (ins : Instr), instrs[k]? = some ins →
        ∀ r ∈ instrReads ins, r < off + k)
    (h2 : ∀ (j : Nat) (p : Nat × Nat), fusedCos instrs j = some p →
        ∀ (k : Nat) (ins : Instr), j < k → k < p.1 → instrs[k]? = some ins →
        off + j ∉ instrReads ins)
    (k : Nat) (ins : Instr) (hk : instrs[k]? = some ins) (Q : Nat → Real)
    (hQ : postInv fnE pw instrs off m0 k Q)
    (s : Nat) (insX : Instr) (hsX : instrs[s]? = some insX)
    (hsub : ∀ r ∈ instrReads insX, r ∈ instrReads ins) :
    instrValue fnE pw insX Q = slotVal fnE pw instrs off m0 (s + 1) s := by
  rw [slotVal, hsX]
  dsimp only
  refine instrValue_congr _ _ _ _ _ ?_
  intro r hr
  rw [postInv_read_val fnE pw instrs off m0 hreads h2 k ins hk Q hQ r (hsub r hr)]
  have hrs := hreads s insX hsX r hr
  by_cases hro : r < off
  · rw [if_pos hro, if_pos hro]
  · rw [if_neg hro, if_neg hro]
    exact slotVal_stable fnE pw instrs off m0 hreads (r - off)
      (r - off + 1) s (by omega) (by omega)

/-- Unfolding `execInstr` on a `SINCOS`. -/
theorem execInstr_sincos_eq (fnE : FnId → Real → Real) (pw : Real → Real → Real)
    (off k : Nat) (ins : Instr) (m : Nat → Real) (h : ins.opcode = .sincos) :
    execInstr fnE pw off k ins m =
      writeMem (writeMem m (off + k) (fnE .sin (m ins.operand)))
        (off + k + ins.extra.getDisp).toNat (fnE .cos (m ins.operand)) := by
  simp only [execInstr, h]

/-- If a fused pair's sin index is `k`, then the instruction at `k` is that
`CALL`-sin. -/
theorem fusedCos_sin_at (instrs : List Instr) (s : Nat) (p : Nat × Nat)
    (hf : fusedCos instrs s = some p) (k : Nat) (ins : Instr)
    (hk : instrs[k]? = some ins) (he : p.1 = k) :
    ins.opcode = .call ∧ ins.extra.getFn = .sin ∧ ins.operand = p.2 ∧
    lastCallIdx .sin p.2 instrs = some k ∧
    lastCallIdx .cos p.2 instrs = some s := by
  obtain ⟨i2, a2⟩ := p
  obtain ⟨insj2, hj2, hcall2, hfn2, hopd2, hcos2, hsin2⟩ :=
    fusedCos_spec instrs s i2 a2 hf
  dsimp only at he ⊢
  subst he
  obtain ⟨hlt, ins3, hins3, hop3, hfn3, hopd3⟩ :=
    lastCallIdx_spec .sin a2 instrs i2 hsin2
  rw [hk] at hins3
  injection hins3 with hins3
  subst hins3
  exact ⟨hop3, hfn3, hopd3, hsin2, hcos2⟩

/-- One post-fusion step of an instruction kept unchanged: it writes its
own slot with its final value. -/
theorem postInv_step_plain (fnE : FnId → Real → Real) (pw : Real → Real → Real)
    (instrs : List Instr) (off : Nat) (m0 : Nat → Real)
    (hreads : ∀ (k : Nat) (ins : Instr), instrs[k]? = some ins →
        ∀ r ∈ instrReads ins, r < off + k)
    (h2 : ∀ (j : Nat) (p : Nat × Nat), fusedCos instrs j = some p →
        ∀ (k : Nat) (ins : Instr), j < k → k < p.1 → instrs[k]? = some ins →
        off + j ∉ instrReads ins)
    (k : Nat) (ins : Instr) (hk : instrs[k]? = some ins)
    (hne : ins.opcode ≠ .nop ∧ ins.opcode ≠ .sincos)
    (Q : Nat → Real) (hQ : postInv fnE pw instrs off m0 k Q)
    (hself : fusedCos instrs k = none)
    (hnok : ∀ (s : Nat) (p : Nat × Nat), fusedCos instrs s = some p → p.1 ≠ k) :
    postInv fnE pw instrs off m0 (k + 1) (execInstr fnE pw off k ins Q) := by
  intro a
  have hkl : k < instrs.length := by
    by_contra hkl
    rw [List.getElem?_eq_none (by omega)] at hk
    exact absurd hk (by simp)
  rw [execInstr_eq_write fnE pw off k ins Q hne.1 hne.2]
  simp only [writeMem]
  by_cases ha : a = off + k
  · subst ha
    have hsub : off + k - off = k := by omega
    have hwb : writtenBy instrs (k + 1) (off + k - off) = true := by
      rw [hsub, writtenBy, hself]
      simp
    rw [if_pos rfl, if_pos ⟨by omega, by omega, hwb⟩, hsub]
    exact instrValue_Q_slotVal fnE pw instrs off m0 hreads h2 k ins hk Q hQ
      k ins hk (fun r hr => hr)
  · rw [if_neg ha, hQ a]
    by_cases hc : off ≤ a ∧ a < off + instrs.length
    · have hwEq : writtenBy instrs k (a - off) = writtenBy instrs (k + 1) (a - off) := by
        rw [writtenBy, writtenBy]
        cases hf : fusedCos instrs (a - off) with
        | none =>
            dsimp only
            rw [decide_eq_decide]
            have hne2 : a - off ≠ k := fun he => ha (by omega)
            omega
        | some p =>
            dsimp only
            rw [decide_eq_decide]
            have := hnok (a - off) p hf
            omega
      rw [hwEq]
    · rw [if_neg (fun h => hc ⟨h.1, h.2.1⟩), if_neg (fun h => hc ⟨h.1, h.2.1⟩)]

/-- One post-fusion step of a `NOP`-ed cos call: nothing is written and
nothing becomes due. -/
theorem postInv_step_nop (fnE : FnId → Real → Real) (pw : Real → Real → Real)
    (instrs : List Instr) (off : Nat) (m0 : Nat → Real)
    (k i a0 : Nat) (hfk : fusedCos instrs k = some (i, a0)) ( _hik : i ≠ k)
    (hnok : ∀ (s : Nat) (p : Nat × Nat), fusedCos instrs s = some p → p.1 ≠ k)
    (Q : Nat → Real) (hQ : postInv fnE pw instrs off m0 k Q) :
    postInv fnE pw instrs off m0 (k + 1) Q := by
  intro a
  rw [hQ a]
  by_cases hc : off ≤ a ∧ a < off + instrs.length
  · have hwEq : writtenBy instrs k (a - off) = writtenBy instrs (k + 1) (a - off) := by
      rw [writtenBy, writtenBy]
      cases hf : fusedCos instrs (a - off) with
      | none =>
          dsimp only
          rw [decide_eq_decide]
          have hne2 : a - off ≠ k := by
            intro he
            rw [he, hfk] at hf
            exact absurd hf (by simp)
          omega
      | some p =>
          dsimp only
          rw [decide_eq_decide]
          have := hnok (a - off) p hf
          omega
    rw [hwEq]
  · rw [if_neg (fun h => hc ⟨h.1, h.2.1⟩), if_neg (fun h => hc ⟨h.1, h.2.1⟩)]

/-- One post-fusion step of a fused `SINCOS`: it writes its own slot with
the sine and the partner cos slot with the cosine, both final. -/
theorem postInv_step_sincos (fnE : FnId → Real → Real) (pw : Real → Real → Real)
    (instrs : List Instr) (off : Nat) (m0 : Nat → Real)
    (hreads : ∀ (k : Nat) (ins : Instr), instrs[k]? = some ins →
        ∀ r ∈ instrReads ins, r < off + k)
    (h2 : ∀ (j : Nat) (p : Nat × Nat), fusedCos instrs j = some p →
        ∀ (k : Nat) (ins : Instr), j < k → k < p.1 → instrs[k]? = some ins →
        off + j ∉ instrReads ins)
    (k j : Nat) (ins insj : Instr)
    (hk : instrs[k]? = some ins)
    (c1 : ins.opcode = .call ∧ ins.extra.getFn = .sin ∧
        lastCallIdx .sin ins.operand instrs = some k)
    (hcos : lastCallIdx .cos ins.operand instrs = some j)
    (hj : instrs[j]? = some insj) (hcallj : insj.opcode = .call)
    (hfnj : insj.extra.getFn = .cos) (hopdj : insj.operand = ins.operand)
    (Q : Nat → Real) (hQ : postInv fnE pw instrs off m0 k Q) :
    postInv fnE pw instrs off m0 (k + 1)
      (execInstr fnE pw off k
        { ins with opcode := .sincos, extra := .disp ((j : Int) - (k : Int)) } Q) := by
  intro a
  have hkl : k < instrs.length := by
    by_contra hkl
    rw [List.getElem?_eq_none (by omega)] at hk
    exact absurd hk (by simp)
  have hjl : j < instrs.length := (lastCallIdx_spec .cos ins.operand instrs j hcos).1
  have hjk : j ≠ k := by
    intro he
    rw [he, hk] at hj
    injection hj with hj
    rw [← hj] at hfnj
    rw [c1.2.1] at hfnj
    exact FnId.noConfusion hfnj
  have hfj : fusedCos instrs j = some (k, ins.operand) :=
    fusedCos_of instrs j k ins.operand insj hj hcallj hfnj hopdj hcos c1.2.2
  have hbk : ins.operand < off + k := by
    have := hreads k ins hk ins.operand
    rw [instrReads_call ins c1.1] at this
    exact this (by simp)
  have hbj : ins.operand < off + j := by
    have := hreads j insj hj insj.operand
    rw [instrReads_call insj hcallj] at this
    rw [hopdj] at this
    exact this (by simp)
  rw [execInstr_sincos_eq fnE pw off k _ Q rfl]
  simp only [writeMem, Extra.getDisp]
  by_cases hT : a = ((off : Int) + (k : Int) + ((j : Int) - (k : Int))).toNat
  case pos =>
    rw [if_pos hT]
    have haj : a = off + j := by omega
    have hsub : a - off = j := by omega
    have hwb : writtenBy instrs (k + 1) (a - off) = true := by
      rw [hsub, writtenBy, hfj]
      simp
    rw [if_pos ⟨by omega, by omega, hwb⟩, hsub]
    have hv := instrValue_Q_slotVal fnE pw instrs off m0 hreads h2 k ins hk Q hQ
      j insj hj (fun r hr => by
        rw [instrReads_call insj hcallj, hopdj] at hr
        rw [instrReads_call ins c1.1]
        exact hr)
    rw [instrValue_call fnE pw insj Q hcallj, hfnj, hopdj] at hv
    exact hv
  case neg =>
    rw [if_neg hT]
    by_cases hK : a = off + k
    case pos =>
      rw [if_pos hK]
      have hsub : a - off = k := by omega
      have hwb : writtenBy instrs (k + 1) (a - off) = true := by
        rw [hsub, writtenBy]
        rw [fusedCos_none instrs k ins hk (fun hcc => by
          have hx := hcc.2.1
          rw [c1.2.1] at hx
          exact FnId.noConfusion hx)]
        simp
      rw [if_pos ⟨by omega, by omega, hwb⟩, hsub]
      have hv := instrValue_Q_slotVal fnE pw instrs off m0 hreads h2 k ins hk Q hQ
        k ins hk (fun r hr => hr)
      rw [instrValue_call fnE pw ins Q c1.1, c1.2.1] at hv
      exact hv
    case neg =>
      rw [if_neg hK, hQ a]
      by_cases hc : off ≤ a ∧ a < off + instrs.length
      · have hwEq : writtenBy instrs k (a - off) = writtenBy instrs (k + 1) (a - off) := by
          rw [writtenBy, writtenBy]
          cases hf : fusedCos instrs (a - off) with
          | none =>
              dsimp only
              rw [decide_eq_decide]
              have hne2 : a - off ≠ k := by
                intro he
                exact hK (by omega)
              omega
          | some p =>
              dsimp only
              rw [decide_eq_decide]
              have hp : p.1 ≠ k := by
                intro he
                obtain ⟨hop3, hfn3, hopd3, hsin3, hcos3⟩ :=
                  fusedCos_sin_at instrs (a - off) p hf k ins hk he
                rw [hopd3] at hcos
                rw [hcos3] at hcos
                injection hcos with hcos
                exact hT (by omega)
              omega
        rw [hwEq]
      · rw [if_neg (fun h => hc ⟨h.1, h.2.1⟩), if_neg (fun h => hc ⟨h.1, h.2.1⟩)]

/-- The post-fusion run, slot by slot: starting from the initial memory it
computes the same final values as the pre-fusion run. -/
theorem runFrom_fused_aux (fnE : FnId → Real → Real) (pw : Real → Real → Real)
    (instrs : List Instr) (off : Nat) (m0 : Nat → Real)
    (hreads : ∀ (k : Nat) (ins : Instr), instrs[k]? = some ins →
        ∀ r ∈ instrReads ins, r < off + k)
    (hplain : ∀ (k : Nat) (ins : Instr), instrs[k]? = some ins →
        plainOp ins.opcode = true)
    (h2 : ∀ (j : Nat) (p : Nat × Nat), fusedCos instrs j = some p →
        ∀ (k : Nat) (ins : Instr), j < k → k < p.1 → instrs[k]? = some ins →
        off + j ∉ instrReads ins) :
    ∀ (rest : List Instr) (k : Nat) (Q : Nat → Real),
      (generateIntrinsics instrs).drop k = rest →
      postInv fnE pw instrs off m0 k Q →
      ∀ addr, runFrom fnE pw off k rest Q addr =
        if off ≤ addr ∧ addr < off + instrs.length then
          slotVal fnE pw instrs off m0 (addr - off + 1) (addr - off)
        else m0 addr
  | [], k, Q, hdrop, hQ, addr => by
      have hlen : instrs.length ≤ k := by
        have h := congrArg List.length hdrop
        simp only [List.length_drop, List.length_nil, generateIntrinsics_length] at h
        omega
      rw [runFrom, hQ addr]
      by_cases hc : off ≤ addr ∧ addr < off + instrs.length
      · have hw : writtenBy instrs k (addr - off) = true := by
          rw [writtenBy]
          cases hf : fusedCos instrs (addr - off) with
          | none => dsimp only; simp only [decide_eq_true_eq]; omega
          | some p =>
              obtain ⟨i2, a2⟩ := p
              dsimp only
              simp only [decide_eq_true_eq]
              obtain ⟨insj2, hj2, -, -, -, -, hsin2⟩ :=
                fusedCos_spec instrs (addr - off) i2 a2 hf
              have := (lastCallIdx_spec .sin a2 instrs i2 hsin2).1
              omega
        rw [if_pos ⟨hc.1, hc.2, hw⟩, if_pos hc]
      · rw [if_neg (fun h => hc ⟨h.1, h.2.1⟩), if_neg hc]
  | pins :: rest2, k, Q, hdrop, hQ, addr => by
      have hpk : (generateIntrinsics instrs)[k]? = some pins := by
        have h := congrArg (fun l => l[0]?) hdrop
        simpa [List.getElem?_drop] using h
      have hkl : k < instrs.length := by
        by_contra hkl
        rw [List.getElem?_eq_none (by rw [generateIntrinsics_length]; omega)] at hpk
        exact absurd hpk (by simp)
      obtain ⟨ins, hk⟩ : ∃ ins, instrs[k]? = some ins := by
        rw [List.getElem?_eq_getElem hkl]
        exact ⟨_, rfl⟩
      have hpins : pins = fuseAt instrs k ins := by
        have h := generateIntrinsics_getElem instrs k ins hk
        rw [hpk] at h
        exact Option.some.inj h
      have hdrop2 : (generateIntrinsics instrs).drop (k + 1) = rest2 := by
        have h := congrArg List.tail hdrop
        simpa [List.tail_drop] using h
      rw [runFrom]
      refine runFrom_fused_aux fnE pw instrs off m0 hreads hplain h2 rest2 (k + 1)
        _ hdrop2 ?_ addr
      rw [hpins, fuseAt]
      by_cases c1 : ins.opcode = .call ∧ ins.extra.getFn = .sin ∧
          lastCallIdx .sin ins.operand instrs = some k
      case pos =>
        rw [if_pos c1]
        cases hcosIdx : lastCallIdx .cos ins.operand instrs with
        | some j =>
            dsimp only
            obtain ⟨hjl, insj, hj, hcallj, hfnj, hopdj⟩ :=
              lastCallIdx_spec .cos ins.operand instrs j hcosIdx
            exact postInv_step_sincos fnE pw instrs off m0 hreads h2 k j ins insj
              hk c1 hcosIdx hj hcallj hfnj hopdj Q hQ
        | none =>
            dsimp only
            refine postInv_step_plain fnE pw instrs off m0 hreads h2 k ins hk
              (plainOp_ne _ (hplain k ins hk)) Q hQ ?_ ?_
            · exact fusedCos_none instrs k ins hk (fun hcc => by
                have hx := hcc.2.1
                rw [c1.2.1] at hx
                exact FnId.noConfusion hx)
            · intro s p hf he
              obtain ⟨hop3, hfn3, hopd3, hsin3, hcos3⟩ :=
                fusedCos_sin_at instrs s p hf k ins hk he
              rw [← hopd3] at hcos3
              rw [hcosIdx] at hcos3
              exact Option.noConfusion hcos3
      case neg =>
        rw [if_neg c1]
        by_cases c2 : ins.opcode = .call ∧ ins.extra.getFn = .cos ∧
            lastCallIdx .cos ins.operand instrs = some k
        case pos =>
          rw [if_pos c2]
          cases hsinIdx : lastCallIdx .sin ins.operand instrs with
          | some i =>
              dsimp only
              have hexec : execInstr fnE pw off k { ins with opcode := .nop } Q = Q := rfl
              rw [hexec]
              refine postInv_step_nop fnE pw instrs off m0 k i ins.operand ?_ ?_ ?_ Q hQ
              · exact fusedCos_of instrs k i ins.operand ins hk c2.1 c2.2.1 rfl
                  c2.2.2 hsinIdx
              · intro he
                obtain ⟨hlt, ins3, hins3, hop3, hfn3, hopd3⟩ :=
                  lastCallIdx_spec .sin ins.operand instrs i hsinIdx
                rw [he, hk] at hins3
                injection hins3 with hins3
                rw [← hins3] at hfn3
                rw [c2.2.1] at hfn3
                exact FnId.noConfusion hfn3
              · intro s p hf he
                obtain ⟨hop3, hfn3, hopd3, -, -⟩ :=
                  fusedCos_sin_at instrs s p hf k ins hk he
                rw [c2.2.1] at hfn3
                exact FnId.noConfusion hfn3
          | none =>
              dsimp only
              refine postInv_step_plain fnE pw instrs off m0 hreads h2 k ins hk
                (plainOp_ne _ (hplain k ins hk)) Q hQ ?_ ?_
              · rw [fusedCos, hk]
                dsimp only
                rw [if_pos c2, hsinIdx]
              · intro s p hf he
                obtain ⟨hop3, hfn3, hopd3, hsin3, -⟩ :=
                  fusedCos_sin_at instrs s p hf k ins hk he
                rw [← hopd3] at hsin3
                rw [hsinIdx] at hsin3
                exact Option.noConfusion hsin3
        case neg =>
          rw [if_neg c2]
          refine postInv_step_plain fnE pw instrs off m0 hreads h2 k ins hk
            (plainOp_ne _ (hplain k ins hk)) Q hQ ?_ ?_
          · exact fusedCos_none instrs k ins hk c2
          · intro s p hf he
            obtain ⟨hop3, hfn3, hopd3, hsin3, -⟩ :=
              fusedCos_sin_at instrs s p hf k ins hk he
            exact c1 ⟨hop3, hfn3, by rw [hopd3]; exact hsin3⟩

/-- Claim C5: `SINCOS` fusion preserves the semantics of generated code:
when the pre-fusion list holds only plain generated opcodes, each
instruction reads only data words and earlier code slots, and no
instruction strictly between a fused pair's cos call and its (later) sin
call reads the cos slot — conditions the code generator's level layout
guarantees — then running the fused program from any initial memory
produces exactly the same final memory as running the unfused program: in
particular the former sin slot and the former cos slot hold the same sine
and cosine values as before. -/
theorem sincos_fusion_preserves_run (fnE : FnId → Real → Real)
    (pw : Real → Real → Real) (instrs : List Instr) (off : Nat)
    (m0 : Nat → Real)
    (hplain : ∀ (k : Nat) (hk : k < instrs.length),
        plainOp (instrs.get ⟨k, hk⟩).opcode = true)
    (hreads : ∀ (k : Nat) (hk : k < instrs.length),
        ∀ r ∈ instrReads (instrs.get ⟨k, hk⟩), r < off + k)
    (hsep : ∀ (j : Nat), j < instrs.length → ∀ (k : Nat) (hk : k < instrs.length),
        j < k → k < ((fusedCos instrs j).map Prod.fst).getD 0 →
        off + j ∉ instrReads (instrs.get ⟨k, hk⟩))
    (addr : Nat) :
    runFrom fnE pw off 0 (generateIntrinsics instrs) m0 addr =
      runFrom fnE pw off 0 instrs m0 addr := by
  have hofGet : ∀ (k : Nat) (ins : Instr), instrs[k]? = some ins →
      ∃ hkl : k < instrs.length, instrs.get ⟨k, hkl⟩ = ins := by
    intro k ins hk
    have hkl : k < instrs.length := by
      by_contra hx
      rw [List.getElem?_eq_none (by omega)] at hk
      exact absurd hk (by simp)
    refine ⟨hkl, ?_⟩
    have hg := List.getElem?_eq_getElem hkl
    rw [hg] at hk
    rw [List.get_eq_getElem]
    exact Option.some.inj hk
  have hreads' : ∀ (k : Nat) (ins : Instr), instrs[k]? = some ins →
      ∀ r ∈ instrReads ins, r < off + k := by
    intro k ins hk r hr
    obtain ⟨hkl, hg⟩ := hofGet k ins hk
    exact hreads k hkl r (by rwa [hg])
  have hplain' : ∀ (k : Nat) (ins : Instr), instrs[k]? = some ins →
      plainOp ins.opcode = true := by
    intro k ins hk
    obtain ⟨hkl, hg⟩ := hofGet k ins hk
    rw [← hg]
    exact hplain k hkl
  have h2' : ∀ (j : Nat) (p : Nat × Nat), fusedCos instrs j = some p →
      ∀ (k : Nat) (ins : Instr), j < k → k < p.1 → instrs[k]? = some ins →
      off + j ∉ instrReads ins := by
    intro j p hf k ins hjk hkp hk
    obtain ⟨i2, a2⟩ := p
    obtain ⟨insj, hj, -, -, -, -, -⟩ := fusedCos_spec instrs j i2 a2 hf
    have hjl : j < instrs.length := by
      by_contra hx
      rw [List.getElem?_eq_none (by omega)] at hj
      exact absurd hj (by simp)
    obtain ⟨hkl, hg⟩ := hofGet k ins hk
    have hs := hsep j hjl k hkl hjk (by rw [hf]; simpa using hkp)
    rwa [hg] at hs
  have hinv0 : postInv fnE pw instrs off m0 0 m0 := by
    intro a
    rw [if_neg ?_]
    intro hcc
    have hw := hcc.2.2
    rw [writtenBy] at hw
    revert hw
    cases hf : fusedCos instrs (a - off) with
    | none => dsimp only; simp
    | some p =>
        obtain ⟨i2, a2⟩ := p
        dsimp only
        simp
  have hpost := runFrom_fused_aux fnE pw instrs off m0 hreads' hplain' h2'
    (generateIntrinsics instrs) 0 m0 rfl hinv0 addr
  have hpre := runFrom_slotVal fnE pw instrs off m0 hreads'
    (fun k ins hk => plainOp_ne _ (hplain' k ins hk)) addr
  rw [hpost, hpre]

/-- Witness for C5: fusing the sin/cos pair of `sincosPre` leaves the run's
final memory unchanged, shown at the former cos slot. -/
theorem sincos_fusion_preserves_run_witness :
    runFrom sampleFnEval samplePow 2 0 (generateIntrinsics sincosPre)
        (fun _ => 5) 3 =
      runFrom sampleFnEval samplePow 2 0 sincosPre (fun _ => 5) 3 :=
  sincos_fusion_preserves_run sampleFnEval samplePow sincosPre 2 (fun _ => 5)
    (by decide) (by decide) (by decide) 3

/-- An instruction at absolute index `i` leaves every slot other than its
own output slot `off + i` and, for `SINCOS`, the displaced slot
untouched. -/
theorem execInstr_outside (fnE : FnId → Real → Real) (pw : Real → Real → Real)
    (off i : Nat) (ins : Instr) (m : Nat → Real) (addr : Nat)
    (hself : addr ≠ off + i)
    (hdisp : ins.opcode = .sincos → addr ≠ (off + i + ins.extra.getDisp).toNat) :
    execInstr fnE pw off i ins m addr = m addr := by
  cases hop : ins.opcode <;> simp only [execInstr, hop, writeMem]
  case sincos => rw [if_neg (hdisp hop), if_neg hself]
  all_goals rw [if_neg hself]

/-- Straight-line execution from index `i` on leaves every address below
the code segment, and every address at or past slot `off + i + length`,
exactly as it was, provided each `SINCOS` displacement stays within those
bounds. -/
theorem runFrom_outside (fnE : FnId → Real → Real) (pw : Real → Real → Real)
    (off : Nat) :
    ∀ (l : List Instr) (i : Nat) (m : Nat → Real) (addr : Nat),
      (addr < off ∨ off + i + l.length ≤ addr) →
      (∀ j (hj : j < l.length), (l.get ⟨j, hj⟩).opcode = .sincos →
        (0:Int) ≤ ((i + j : Nat) : Int) + (l.get ⟨j, hj⟩).extra.getDisp ∧
        ((i + j : Nat) : Int) + (l.get ⟨j, hj⟩).extra.getDisp <
          ((i + l.length : Nat) : Int)) →
      runFrom fnE pw off i l m addr = m addr
  | [], _, _, _, _, _ => rfl
  | ins :: rest, i, m, addr, haddr, hd => by
      have h0 : ins.opcode = .sincos →
          (0:Int) ≤ ((i + 0 : Nat) : Int) + ins.extra.getDisp ∧
          ((i + 0 : Nat) : Int) + ins.extra.getDisp <
            ((i + (ins :: rest).length : Nat) : Int) := hd 0 (by simp)
      rw [runFrom, runFrom_outside fnE pw off rest (i + 1) _ addr
            (by rcases haddr with h | h
                · exact Or.inl h
                · right; simp only [List.length_cons] at h; omega)
            (fun j hj hs => by
              have hb := hd (j + 1) (by simp only [List.length_cons]; omega)
                (by simpa using hs)
              simp only [List.get_cons_succ] at hb
              constructor
              · have h1 := hb.1; push_cast at h1 ⊢; omega
              · have h2 := hb.2; simp only [List.length_cons] at h2
                push_cast at h2 ⊢; omega)]
      refine execInstr_outside fnE pw off i ins m addr ?_ ?_
      · rcases haddr with h | h
        · omega
        · simp only [List.length_cons] at h; omega
      · intro hs
        have hb := h0 hs
        have h1 := hb.1
        have h2 := hb.2
        simp only [List.length_cons] at h2
        push_cast at h1 h2
        rcases haddr with h | h
        · omega
        · simp only [List.length_cons] at h; omega

/-- Claim C10: `Executable::run` writes only slots of the code segment:
instruction `i` writes its own slot `memoryOffset + i`, and `SINCOS`
additionally writes `memoryOffset + i + target`; provided each `SINCOS`
displacement targets another instruction's slot (as the generated programs
guarantee), a run leaves every address outside
`[instructionsOffset, instructionsOffset + |instructions|)` — the
scratchpad word, all input words and all constant words — exactly as it
was, so inputs written once remain valid across repeated runs. -/
theorem run_writes_only_code_segment (fnE : FnId → Real → Real)
    (pw : Real → Real → Real) (p : Program) (m : Nat → Real) (addr : Nat)
    (hdisp : ∀ j (hj : j < p.instructions.length),
        (p.instructions.get ⟨j, hj⟩).opcode = .sincos →
        (0:Int) ≤ (j : Int) + (p.instructions.get ⟨j, hj⟩).extra.getDisp ∧
        (j : Int) + (p.instructions.get ⟨j, hj⟩).extra.getDisp <
          p.instructions.length)
    (haddr : addr < p.instructionsOffset ∨
        p.instructionsOffset + p.instructions.length ≤ addr) :
    runProgram fnE pw p m addr = m addr := by
  rw [runProgram]
  refine runFrom_outside fnE pw p.instructionsOffset p.instructions 0 m addr ?_ ?_
  · simpa using haddr
  · intro j hj hs
    have hb := hdisp j hj hs
    have h1 := hb.1
    have h2 := hb.2
    constructor
    · push_cast at h1 ⊢; omega
    · push_cast at h2 ⊢; omega

/-- Witness for C10: running the sample `SINCOS` program touches neither
the input word at address 0 nor the constant word at address 1. -/
theorem run_writes_only_code_segment_witness :
    runProgram sampleFnEval samplePow progSincos (fun _ => 3) 0 = 3 ∧
    runProgram sampleFnEval samplePow progSincos (fun _ => 3) 1 = 3 :=
  ⟨run_writes_only_code_segment sampleFnEval samplePow progSincos (fun _ => 3) 0
      (by decide) (Or.inl (by decide)),
    run_writes_only_code_segment sampleFnEval samplePow progSincos (fun _ => 3) 1
      (by decide) (Or.inl (by decide))⟩

end Sixpack
